import Mathlib

/-!
# simple-dns-client: the DNS wire-format codec

A shallow embedding of `dns-client.go` (the query encoder) and `response.go`
(the response decoder), followed by theorems about them.

Conventions of the embedding.

* A Go `byte`, `uint16`, `uint32` or `int` is a `Nat`; every conversion that
  truncates in Go (`byte(x)`, `uint16(x)`) is an explicit `% 2^w`.
* A Go string is the list of its bytes; `'.'` is the byte `46`.
* A Go slice is a `Slice`: the visible elements (`data`, `len = data.length`)
  and the elements of the backing array between `len` and `cap` (`extra`).
  Indexing `s[i]` is checked against `len`, slicing `s[lo:hi]` against `cap`,
  as in Go.
* The decoder has no error returns: what goes wrong is a run-time panic, and
  the name loop may fail to terminate.  A computation is a `Res`: a value
  (`ok`), a panic (`panic`), or a loop still running when the iteration
  budget is used up (`spin`).
-/

namespace DNS

/-! ## Go slices and outcomes -/

/-- Outcome of running a piece of the decoder. -/
inductive Res (α : Type) where
  | ok : α → Res α
  | panic : Res α
  | spin : Res α
  deriving DecidableEq, Repr

/-- Sequencing of outcomes: a panic or an exhausted budget propagates. -/
def Res.bind {α β : Type} (x : Res α) (f : α → Res β) : Res β :=
  match x with
  | .ok a => f a
  | .panic => .panic
  | .spin => .spin

/-- A Go `[]byte`: `data` are the elements below `len`, `extra` the elements of
the backing array from `len` up to `cap`. -/
structure Slice where
  data : List Nat
  extra : List Nat
  deriving DecidableEq, Repr

/-- The Go builtin `len(s)`. -/
def Slice.len (s : Slice) : Nat := s.data.length

/-- The Go builtin `cap(s)`. -/
def Slice.cap (s : Slice) : Nat := s.data.length + s.extra.length

/-- The backing array seen from the first element of the slice. -/
def Slice.backing (s : Slice) : List Nat := s.data ++ s.extra

/-- The index expression `s[i]`: panics unless `i < len(s)`. -/
def Slice.index (s : Slice) (i : Nat) : Res Nat :=
  match s.data[i]? with
  | some b => .ok b
  | none => .panic

/-- The slice expression `s[lo:hi]`: panics unless `lo ≤ hi ≤ cap(s)`; the result
has length `hi - lo` and shares the rest of the backing array. -/
def Slice.slice (s : Slice) (lo hi : Nat) : Res Slice :=
  if lo ≤ hi ∧ hi ≤ s.cap then
    .ok ⟨(s.backing.drop lo).take (hi - lo), s.backing.drop hi⟩
  else .panic

/-! ## dns-client.go: the encoder -/

/-- The function `strings.Split(hostname, ".")`: the substrings between the dots, empty ones
included; a string without a dot (the empty string too) gives one part. -/
def splitDot : List Nat → List (List Nat)
  | [] => [[]]
  | c :: cs =>
    if c = 46 then [] :: splitDot cs
    else
      match splitDot cs with
      | [] => [[c]]
      | p :: ps => (c :: p) :: ps

/-- The function `makeDNSQueryHeader(txId, recurse)`: twelve zero bytes, then bytes 0, 1, 2
and 5 are assigned. -/
def makeDNSQueryHeader (txId : Nat) (recurse : Bool) : List Nat :=
  let header := List.replicate 12 0
  let header := header.set 0 (((txId &&& 0xFF00) >>> 8) % 256)
  let header := header.set 1 ((txId &&& 0xFF) % 256)
  let header := if recurse then header.set 2 1 else header.set 2 0
  let header := header.set 5 1
  header

/-- The function `makeDNSQuestion(hostname, qType, qClass)`: for every part of the split
hostname the byte `byte(len(p))` and the part, then a zero byte, then the type
and class, high byte first. -/
def makeDNSQuestion (hostname : List Nat) (qType qClass : Nat) : List Nat :=
  let question := (splitDot hostname).foldl
    (fun question p => (question ++ [p.length % 256]) ++ p) []
  let question := question ++ [0]
  let t1 := ((qType &&& 0xFF00) >>> 8) % 256
  let t2 := (qType &&& 0xFF) % 256
  let c1 := ((qClass &&& 0xFF00) >>> 8) % 256
  let c2 := (qClass &&& 0xFF) % 256
  question ++ [t1, t2, c1, c2]

/-- The function `makeDNSQuery(hostname)` with the random transaction id as a parameter. -/
def makeDNSQuery (txId : Nat) (hostname : List Nat) : List Nat :=
  makeDNSQueryHeader txId true ++ makeDNSQuestion hostname 1 1

/-! ## response.go: the decoder -/

/-- The Go struct `DNSQuestion` (its field `Type` is `Type_` here, `Type` being reserved). -/
structure DNSQuestion where
  Type_ : Nat
  Class : Nat
  Name : List Nat
  deriving DecidableEq, Repr

/-- The Go struct `DNSResourceRecord` (its field `Type` is `Type_` here). -/
structure DNSResourceRecord where
  Type_ : Nat
  Class : Nat
  TTL : Nat
  RDLength : Nat
  Name : List Nat
  RData : List Nat
  deriving DecidableEq, Repr

/-- The Go struct `DNSPayload`. -/
structure DNSPayload where
  TransactionId : Nat
  lFlagBits : Nat
  rFlagBits : Nat
  QDCount : Nat
  ANCount : Nat
  NSCount : Nat
  ARCount : Nat
  Size : Nat
  Questions : List DNSQuestion
  Records : List DNSResourceRecord
  deriving DecidableEq, Repr

/-- The method `IsResponse`: `h.lFlagBits & 0x80 == 1` (in Go `&` binds tighter than `==`). -/
def DNSPayload.IsResponse (h : DNSPayload) : Bool := h.lFlagBits &&& 0x80 == 1

/-- The method `Opcode`: `int((h.lFlagBits >> 3) & 0xF)`. -/
def DNSPayload.Opcode (h : DNSPayload) : Nat := (h.lFlagBits >>> 3) &&& 0xF

/-- The method `AuthoritativeAnswer`: `h.lFlagBits & 4 == 1`. -/
def DNSPayload.AuthoritativeAnswer (h : DNSPayload) : Bool := h.lFlagBits &&& 4 == 1

/-- The method `Truncated`: `h.lFlagBits & 2 == 1`. -/
def DNSPayload.Truncated (h : DNSPayload) : Bool := h.lFlagBits &&& 2 == 1

/-- The method `RecursionDesired`: `h.lFlagBits & 1 == 1`. -/
def DNSPayload.RecursionDesired (h : DNSPayload) : Bool := h.lFlagBits &&& 1 == 1

/-- The method `RecursionAvailable`: `h.rFlagBits & 0x80 == 1`. -/
def DNSPayload.RecursionAvailable (h : DNSPayload) : Bool := h.rFlagBits &&& 0x80 == 1

/-- The method `Z`: `int((h.rFlagBits >> 4) & 0x7)`. -/
def DNSPayload.Z (h : DNSPayload) : Nat := (h.rFlagBits >>> 4) &&& 0x7

/-- The method `ResponseCode`: `int(h.rFlagBits & 0xF)`. -/
def DNSPayload.ResponseCode (h : DNSPayload) : Nat := h.rFlagBits &&& 0xF

/-- The function `bytesToUint16(b)`: `(uint16(b[0]) << 8) | uint16(b[1])`. -/
def bytesToUint16 (b : Slice) : Res Nat :=
  (b.index 0).bind fun b0 =>
  (b.index 1).bind fun b1 =>
  .ok ((((b0 % 65536) <<< 8) % 65536) ||| (b1 % 65536))

/-- The loop of `bytesToUint32`: `result = (result << 8) | uint32(n)` for every further
byte. -/
def bytesToUint32Loop (result : Nat) (rest : List Nat) : Nat :=
  rest.foldl (fun result n => ((result <<< 8) % 4294967296) ||| (n % 4294967296)) result

/-- The function `bytesToUint32(b)`: starts from `uint32(b[0])` and folds in `b[1:]`. -/
def bytesToUint32 (b : Slice) : Res Nat :=
  (b.index 0).bind fun b0 =>
  (b.slice 1 b.len).bind fun rest =>
  .ok (bytesToUint32Loop (b0 % 4294967296) rest.data)

/-- The function `decodeHeader(response)`: the fields are read in the order of the struct
literal; `Questions` and `Records` are left empty. -/
def decodeHeader (response : Slice) : Res DNSPayload :=
  ((response.slice 0 2).bind bytesToUint16).bind fun txId =>
  (response.index 2).bind fun lFlagBits =>
  (response.index 3).bind fun rFlagBits =>
  ((response.slice 4 6).bind bytesToUint16).bind fun qd =>
  ((response.slice 6 8).bind bytesToUint16).bind fun an =>
  ((response.slice 8 10).bind bytesToUint16).bind fun ns =>
  ((response.slice 10 12).bind bytesToUint16).bind fun ar =>
  .ok { TransactionId := txId, lFlagBits := lFlagBits, rFlagBits := rFlagBits,
        QDCount := qd, ANCount := an, NSCount := ns, ARCount := ar,
        Size := response.len, Questions := [], Records := [] }

/-- The local variables of `decodeName` that its loop updates. -/
structure NameState where
  name : List Nat
  offset : Nat
  pointer : Nat
  deriving DecidableEq, Repr

/-- The inner loop of `decodeName`, `for i := 1; i <= size; i++`, entered at `i` with
`n` iterations to go: appends `response[offset+i]` to `name`. -/
def copyLabel (response : Slice) (offset : Nat) : Nat → Nat → List Nat → Res (List Nat)
  | 0, _, name => .ok name
  | n + 1, i, name =>
    (response.index (offset + i)).bind fun c =>
    copyLabel response offset n (i + 1) (name ++ [c])

/-- The outer loop of `decodeName`, `for b := response[offset]; b != 0; { ... }`, entered
with the current `b` and at most `fuel` tests of its condition left. -/
def decodeNameLoop (response : Slice) : Nat → Nat → NameState → Res NameState
  | 0, _, _ => .spin
  | fuel + 1, b, st =>
    if b = 0 then .ok st
    else if b &&& 0xC0 = 0xC0 then
      ((response.slice st.offset (st.offset + 2)).bind bytesToUint16).bind fun pointer =>
      let offset := pointer &&& 0x3FFF
      (response.index offset).bind fun b =>
      decodeNameLoop response fuel b { st with offset := offset, pointer := pointer }
    else
      let size := b
      (copyLabel response st.offset size 1 st.name).bind fun name =>
      let name := name ++ [46]
      let offset := st.offset + (size + 1)
      (response.index offset).bind fun b =>
      decodeNameLoop response fuel b { st with name := name, offset := offset }

/-- The whole of `decodeName(response, name, pos)` up to its `return`: the state of the
locals when the loop is left. -/
def decodeNameRun (fuel : Nat) (response : Slice) (name : List Nat) (pos : Nat) :
    Res NameState :=
  (response.index pos).bind fun b =>
  decodeNameLoop response fuel b { name := name, offset := pos, pointer := 0 }

/-- The function `decodeName(response, name, pos)`: its only result is the next offset,
`offset + 1` when `pointer == 0` and `pos + 2` otherwise. -/
def decodeName (fuel : Nat) (response : Slice) (name : List Nat) (pos : Nat) : Res Nat :=
  (decodeNameRun fuel response name pos).bind fun st =>
  if st.pointer = 0 then .ok (st.offset + 1) else .ok (pos + 2)

/-- The function `decodeQuestion(response, question, pos)`.  `question.Name` is set to the empty
slice and handed to `decodeName` by value; what `decodeName` appends goes to
its own copy of the slice header, so the field stays empty. -/
def decodeQuestion (fuel : Nat) (response : Slice) (pos : Nat) : Res (DNSQuestion × Nat) :=
  let name : List Nat := []
  (decodeName fuel response name pos).bind fun pos =>
  ((response.slice pos (pos + 2)).bind bytesToUint16).bind fun type =>
  ((response.slice (pos + 2) (pos + 4)).bind bytesToUint16).bind fun cls =>
  .ok ({ Name := name, Type_ := type, Class := cls }, pos + 4)

/-- The function `decodeRecord(response, record, pos)`; `record.Name` stays empty as in
`decodeQuestion`. -/
def decodeRecord (fuel : Nat) (response : Slice) (pos : Nat) :
    Res (DNSResourceRecord × Nat) :=
  let name : List Nat := []
  (decodeName fuel response name pos).bind fun pos =>
  ((response.slice pos (pos + 2)).bind bytesToUint16).bind fun type =>
  ((response.slice (pos + 2) (pos + 4)).bind bytesToUint16).bind fun cls =>
  ((response.slice (pos + 4) (pos + 8)).bind bytesToUint32).bind fun ttl =>
  ((response.slice (pos + 8) (pos + 10)).bind bytesToUint16).bind fun rdLength =>
  let dataLen := rdLength
  let pos := pos + 10
  (response.slice pos (pos + dataLen)).bind fun rdata =>
  .ok ({ Name := name, Type_ := type, Class := cls, TTL := ttl, RDLength := rdLength,
         RData := rdata.data }, pos + dataLen)

/-- The first loop of `decodeResponse`: `n` more questions from `pos`. -/
def decodeQuestions (fuel : Nat) (response : Slice) : Nat → Nat → Res (List DNSQuestion × Nat)
  | 0, pos => .ok ([], pos)
  | n + 1, pos =>
    (decodeQuestion fuel response pos).bind fun r =>
    (decodeQuestions fuel response n r.2).bind fun rs =>
    .ok (r.1 :: rs.1, rs.2)

/-- The second loop of `decodeResponse`: `n` more records from `pos`. -/
def decodeRecords (fuel : Nat) (response : Slice) :
    Nat → Nat → Res (List DNSResourceRecord × Nat)
  | 0, pos => .ok ([], pos)
  | n + 1, pos =>
    (decodeRecord fuel response pos).bind fun r =>
    (decodeRecords fuel response n r.2).bind fun rs =>
    .ok (r.1 :: rs.1, rs.2)

/-- The function `decodeResponse(response)`: the header, then `QDCount` questions from offset
12, then `ANCount + NSCount + ARCount` records. -/
def decodeResponse (fuel : Nat) (response : Slice) : Res DNSPayload :=
  (decodeHeader response).bind fun payload =>
  let pos := 12
  let numQuestions := payload.QDCount
  (decodeQuestions fuel response numQuestions pos).bind fun qs =>
  let numRecords := payload.ANCount + payload.NSCount + payload.ARCount
  (decodeRecords fuel response numRecords qs.2).bind fun rs =>
  .ok { payload with Questions := qs.1, Records := rs.1 }

/-- The function `decodeResponse(response)` together with the value of its local `pos` when it
returns: the offset behind the last section decoded. -/
def decodeResponseCursor (fuel : Nat) (response : Slice) : Res (DNSPayload × Nat) :=
  (decodeHeader response).bind fun payload =>
  let pos := 12
  let numQuestions := payload.QDCount
  (decodeQuestions fuel response numQuestions pos).bind fun qs =>
  let numRecords := payload.ANCount + payload.NSCount + payload.ARCount
  (decodeRecords fuel response numRecords qs.2).bind fun rs =>
  .ok ({ payload with Questions := qs.1, Records := rs.1 }, rs.2)

/-! ## Specification-side definitions -/

/-- The label sequence written out as the claims describe it: for every label, in
order, one length byte followed by the bytes of the label. -/
def encodedLabels : List (List Nat) → List Nat
  | [] => []
  | p :: ps => (p.length :: p) ++ encodedLabels ps

/-- The name as `decodeName` accumulates it: every label followed by the byte `'.'`. -/
def dotted : List (List Nat) → List Nat
  | [] => []
  | p :: ps => (p ++ [46]) ++ dotted ps

/-- The slice `q[:len(q)-4]`: a question without its type and class bytes, sharing the
backing array of `q`, whose capacity beyond `len(q)` holds `spare`. -/
def nameBytes (q spare : List Nat) : Slice :=
  ⟨q.take (q.length - 4), q.drop (q.length - 4) ++ spare⟩

/-- The big-endian 16-bit value held in the bytes `i` and `i + 1` of a byte sequence. -/
def be16At (bytes : List Nat) (i : Nat) : Nat :=
  bytes.getD i 0 * 256 + bytes.getD (i + 1) 0

/-- The two bytes at offset `p` are a compression pointer with target `target`: byte `p`
lies in the slice and has its top two bits set, byte `p + 1` lies in the backing array,
and the low 14 bits of the pair are `target`. -/
def isPointerTo (s : Slice) (p target : Nat) : Bool :=
  match s.data[p]?, s.backing[p + 1]? with
  | some a0, some a1 =>
    decide (a0 < 256) && decide (a1 < 256) && decide (192 ≤ a0)
      && decide ((a0 * 256 + a1) % 16384 = target)
  | _, _ => false

/-- A hand-built response: the header with QDCOUNT=1, ANCOUNT=2, NSCOUNT=0, ARCOUNT=0, the
question "a" A IN, and two A records whose name is a pointer to offset 12. -/
def sampleResponse : Slice :=
  ⟨[0x12, 0x34, 0x81, 0x80, 0, 1, 0, 2, 0, 0, 0, 0,
    1, 97, 0, 0, 1, 0, 1,
    0xC0, 0x0C, 0, 1, 0, 1, 0, 0, 0, 60, 0, 4, 10, 0, 0, 1,
    0xC0, 0x0C, 0, 1, 0, 1, 0, 0, 1, 44, 0, 4, 10, 0, 0, 2], []⟩

/-- What `decodeResponse` returns on `sampleResponse`. -/
def samplePayload : DNSPayload :=
  { TransactionId := 0x1234, lFlagBits := 0x81, rFlagBits := 0x80,
    QDCount := 1, ANCount := 2, NSCount := 0, ARCount := 0, Size := 51,
    Questions := [{ Type_ := 1, Class := 1, Name := [] }],
    Records := [{ Type_ := 1, Class := 1, TTL := 60, RDLength := 4, Name := [],
                  RData := [10, 0, 0, 1] },
                { Type_ := 1, Class := 1, TTL := 300, RDLength := 4, Name := [],
                  RData := [10, 0, 0, 2] }] }

/-- The bytes of the string "example.com". -/
def exampleCom : List Nat := [101, 120, 97, 109, 112, 108, 101, 46, 99, 111, 109]

/-- A payload with the given flag bytes and nothing else. -/
def flagsOnly (l r : Nat) : DNSPayload :=
  { TransactionId := 0, lFlagBits := l, rFlagBits := r, QDCount := 0, ANCount := 0,
    NSCount := 0, ARCount := 0, Size := 0, Questions := [], Records := [] }

/-- A hand-built response with QDCOUNT=1, ANCOUNT=1: the question "a" A IN at offset 12,
and at offset 19 an A record whose name is the label "www" followed by a pointer to
offset 12 (`03 77 77 77 C0 0C`), so that its TYPE is at offset 25. -/
def wwwResponse : Slice :=
  ⟨[0x12, 0x34, 0x81, 0x80, 0, 1, 0, 1, 0, 0, 0, 0,
    1, 97, 0, 0, 1, 0, 1,
    3, 119, 119, 119, 0xC0, 0x0C, 0, 1, 0, 1, 0, 0, 0, 60, 0, 4, 10, 0, 0, 1], []⟩

/-- The big-endian 32-bit value held in the bytes `i` to `i + 3` of a byte sequence. -/
def be32At (bytes : List Nat) (i : Nat) : Nat :=
  bytes.getD i 0 * 16777216 + bytes.getD (i + 1) 0 * 65536 + bytes.getD (i + 2) 0 * 256
    + bytes.getD (i + 3) 0

/-- The datagram of `sampleResponse` cut two bytes short, as `main` hands it to
`decodeResponse`: `response[:bytesRead]` of a zeroed receive buffer, whose capacity
beyond the 49 bytes received holds zero bytes. -/
def shortDatagram : Slice :=
  ⟨sampleResponse.data.take 49, [0, 0, 0, 0, 0, 0, 0, 0]⟩

/-- What the loop of `makeDNSQuestion` writes for a list of parts: for every part, empty
or not, the byte `len(p) mod 256` followed by the part. -/
def lengthPrefixed : List (List Nat) → List Nat
  | [] => []
  | p :: ps => ((p.length % 256) :: p) ++ lengthPrefixed ps

/-- The four type and class bytes that end a question. -/
def typeClassBytes (qType qClass : Nat) : List Nat :=
  [(qType / 256) % 256, qType % 256, (qClass / 256) % 256, qClass % 256]

/-- Outcome `x` on a shorter buffer follows outcome `y` on the longer one: it is the same
unless the shorter buffer runs out, which is a panic. -/
def Follows {α : Type} (x y : Res α) : Prop := x = .panic ∨ x = y

/-- The slice `t` is the beginning of the slice `s`: its bytes begin the bytes of `s` and
its backing array begins the backing array of `s`. -/
def Slice.Begins (t s : Slice) : Prop :=
  (∃ more, s.data = t.data ++ more) ∧ (∃ more, s.backing = t.backing ++ more)

/-- The buffer `sampleResponse[:50]`: the sample with its last byte cut off, the byte
staying in the backing array. -/
def sampleCut : Slice :=
  ⟨sampleResponse.data.take 50, sampleResponse.data.drop 50⟩

/-- A computation whose outcome, once it is not `spin`, is the same for every larger
iteration budget. -/
def FuelStable {α : Type} (F : Nat → Res α) : Prop :=
  ∀ fuel k, F fuel ≠ .spin → F (fuel + k) = F fuel

/-! ## Bytes and bits -/

theorem hiByte_eq (x : Nat) : ((x &&& 0xFF00) >>> 8) % 256 = (x / 256) % 256 := by
  have h : ((x &&& 0xFF00) >>> 8) % 2 ^ 8 = (x >>> 8) % 2 ^ 8 := by
    apply Nat.eq_of_testBit_eq
    intro i
    simp only [Nat.testBit_mod_two_pow, Nat.testBit_shiftRight, Nat.testBit_and]
    by_cases hi : i < 8
    · have : (0xFF00 : Nat).testBit (8 + i) = true := by
        interval_cases i <;> rfl
      simp [this]
    · simp [hi]
  rw [Nat.shiftRight_eq_div_pow x 8] at h
  exact h

theorem loByte_eq (x : Nat) : (x &&& 0xFF) % 256 = x % 256 := by
  have h : x &&& 0xFF = x % 256 := Nat.and_pow_two_sub_one_eq_mod x 8
  rw [h, Nat.mod_mod]

theorem be16_eq (b0 b1 : Nat) (h0 : b0 < 256) (h1 : b1 < 256) :
    (((b0 % 65536) <<< 8) % 65536) ||| (b1 % 65536) = b0 * 256 + b1 := by
  rw [Nat.mod_eq_of_lt (by omega : b0 < 65536), Nat.mod_eq_of_lt (by omega : b1 < 65536),
    Nat.shiftLeft_eq, Nat.mod_eq_of_lt (by omega)]
  have h := Nat.mul_add_lt_is_or (show b1 < 2 ^ 8 from h1) b0
  rw [Nat.mul_comm] at h
  exact h.symm

/-- Masking with a single bit other than bit 0 never gives 1. -/
theorem and_two_pow_ne_one (x k : Nat) (hk : 0 < k) : x &&& 2 ^ k ≠ 1 := by
  intro h
  have h0 : (x &&& 2 ^ k).testBit 0 = true := by rw [h]; rfl
  rw [Nat.testBit_and, Nat.testBit_two_pow] at h0
  have : ¬ k = 0 := by omega
  simp [this] at h0

/-! ## The encoder -/

theorem makeDNSQueryHeader_eq (txId : Nat) (recurse : Bool) :
    makeDNSQueryHeader txId recurse
      = [(txId / 256) % 256, txId % 256, if recurse then 1 else 0,
         0, 0, 1, 0, 0, 0, 0, 0, 0] := by
  unfold makeDNSQueryHeader
  rw [hiByte_eq, loByte_eq]
  cases recurse <;> rfl

theorem foldl_labels (parts : List (List Nat)) (acc : List Nat)
    (h : ∀ p ∈ parts, p.length < 256) :
    parts.foldl (fun question p => (question ++ [p.length % 256]) ++ p) acc
      = acc ++ encodedLabels parts := by
  induction parts generalizing acc with
  | nil => simp [encodedLabels]
  | cons p ps ih =>
    have hp : p.length < 256 := h p (List.mem_cons_self _ _)
    have hps : ∀ q ∈ ps, q.length < 256 := fun q hq => h q (List.mem_cons_of_mem _ hq)
    rw [List.foldl_cons, ih _ hps, Nat.mod_eq_of_lt hp]
    simp [encodedLabels]

theorem makeDNSQuestion_eq (hostname : List Nat) (qType qClass : Nat)
    (h : ∀ p ∈ splitDot hostname, p.length < 256) :
    makeDNSQuestion hostname qType qClass
      = encodedLabels (splitDot hostname) ++ [0]
        ++ [(qType / 256) % 256, qType % 256, (qClass / 256) % 256, qClass % 256] := by
  unfold makeDNSQuestion
  simp only [hiByte_eq, loByte_eq]
  rw [foldl_labels _ _ h]
  simp

/-! ## The decoder: header and flags -/

/-- Reading a 16-bit field at `pos` succeeds as soon as both bytes lie in the backing
array, whether or not they lie below `len`. -/
theorem read16_ok (s : Slice) (pos b0 b1 : Nat)
    (h0 : s.backing[pos]? = some b0) (h1 : s.backing[pos + 1]? = some b1) :
    (s.slice pos (pos + 2)).bind bytesToUint16
      = .ok ((((b0 % 65536) <<< 8) % 65536) ||| (b1 % 65536)) := by
  have hlt : pos + 1 < s.backing.length := by
    rcases Nat.lt_or_ge (pos + 1) s.backing.length with h | h
    · exact h
    · rw [List.getElem?_eq_none h] at h1; cases h1
  have hcap : pos ≤ pos + 2 ∧ pos + 2 ≤ s.cap := by
    have : s.backing.length = s.cap := by simp [Slice.backing, Slice.cap]
    omega
  have e0 : ((s.backing.drop pos).take 2)[0]? = some b0 := by
    rw [List.getElem?_take_of_lt (by omega), List.getElem?_drop]
    simpa using h0
  have e1 : ((s.backing.drop pos).take 2)[1]? = some b1 := by
    rw [List.getElem?_take_of_lt (by omega), List.getElem?_drop]
    simpa using h1
  simp only [Slice.slice, if_pos hcap, Res.bind, bytesToUint16, Slice.index,
    Nat.add_sub_cancel_left, e0, e1]

theorem decodeHeader_twelve (a0 a1 a2 a3 a4 a5 a6 a7 a8 a9 a10 a11 : Nat)
    (rest extra : List Nat) :
    decodeHeader ⟨a0 :: a1 :: a2 :: a3 :: a4 :: a5 :: a6 :: a7 :: a8 :: a9 :: a10 :: a11 :: rest,
        extra⟩
      = .ok { TransactionId := (((a0 % 65536) <<< 8) % 65536) ||| (a1 % 65536),
              lFlagBits := a2, rFlagBits := a3,
              QDCount := (((a4 % 65536) <<< 8) % 65536) ||| (a5 % 65536),
              ANCount := (((a6 % 65536) <<< 8) % 65536) ||| (a7 % 65536),
              NSCount := (((a8 % 65536) <<< 8) % 65536) ||| (a9 % 65536),
              ARCount := (((a10 % 65536) <<< 8) % 65536) ||| (a11 % 65536),
              Size := rest.length + 12, Questions := [], Records := [] } := by
  obtain ⟨s, hs⟩ : ∃ s : Slice, s = ⟨a0 :: a1 :: a2 :: a3 :: a4 :: a5 :: a6 :: a7 :: a8 :: a9
      :: a10 :: a11 :: rest, extra⟩ := ⟨_, rfl⟩
  rw [← hs]
  unfold decodeHeader
  rw [read16_ok s 0 a0 a1 (by rw [hs]; simp [Slice.backing]) (by rw [hs]; simp [Slice.backing]),
    read16_ok s 4 a4 a5 (by rw [hs]; simp [Slice.backing]) (by rw [hs]; simp [Slice.backing]),
    read16_ok s 6 a6 a7 (by rw [hs]; simp [Slice.backing]) (by rw [hs]; simp [Slice.backing]),
    read16_ok s 8 a8 a9 (by rw [hs]; simp [Slice.backing]) (by rw [hs]; simp [Slice.backing]),
    read16_ok s 10 a10 a11 (by rw [hs]; simp [Slice.backing]) (by rw [hs]; simp [Slice.backing])]
  rw [hs]
  rfl

theorem IsResponse_false (h : DNSPayload) : h.IsResponse = false := by
  have := and_two_pow_ne_one h.lFlagBits 7 (by decide)
  simpa [DNSPayload.IsResponse] using this

theorem AuthoritativeAnswer_false (h : DNSPayload) : h.AuthoritativeAnswer = false := by
  have := and_two_pow_ne_one h.lFlagBits 2 (by decide)
  simpa [DNSPayload.AuthoritativeAnswer] using this

theorem Truncated_false (h : DNSPayload) : h.Truncated = false := by
  have := and_two_pow_ne_one h.lFlagBits 1 (by decide)
  simpa [DNSPayload.Truncated] using this

theorem RecursionAvailable_false (h : DNSPayload) : h.RecursionAvailable = false := by
  have := and_two_pow_ne_one h.rFlagBits 7 (by decide)
  simpa [DNSPayload.RecursionAvailable] using this

/-! ## The name codec -/

theorem splitDot_ne_nil (h : List Nat) : splitDot h ≠ [] := by
  cases h with
  | nil => simp [splitDot]
  | cons c cs =>
    unfold splitDot
    split
    · simp
    · split <;> simp

/-- Joining the parts of `strings.Split` with dots gives the string back. -/
theorem dotted_splitDot (h : List Nat) : dotted (splitDot h) = h ++ [46] := by
  induction h with
  | nil => rfl
  | cons c cs ih =>
    unfold splitDot
    split
    · next hc => subst hc; simp [dotted, ih]
    · split
      · next hnil => exact absurd hnil (splitDot_ne_nil cs)
      · next p ps hps =>
        rw [hps] at ih
        simp only [dotted, List.cons_append, List.append_assoc] at ih ⊢
        rw [ih]

theorem length_encodedLabels_splitDot (h : List Nat) :
    (encodedLabels (splitDot h)).length = h.length + 1 := by
  induction h with
  | nil => rfl
  | cons c cs ih =>
    unfold splitDot
    split
    · simp [encodedLabels, ih]
    · split
      · next hnil => exact absurd hnil (splitDot_ne_nil cs)
      · next p ps hps =>
        rw [hps] at ih
        simp only [encodedLabels, List.length_cons, List.length_append] at ih ⊢
        omega

theorem index_of_drop (s : Slice) (off c : Nat) (t : List Nat)
    (h : s.data.drop off = c :: t) : s.index off = .ok c := by
  have e : s.data[off]? = some c := by
    have := congrArg List.head? h
    simpa [List.head?_drop] using this
  simp [Slice.index, e]

theorem drop_add_of_drop {l : List Nat} {n : Nat} {a b : List Nat}
    (h : l.drop n = a ++ b) : l.drop (n + a.length) = b := by
  rw [← List.drop_drop, h, List.drop_left]

/-- The inner loop copies a label that lies in the buffer. -/
theorem copyLabel_ok (s : Slice) (off : Nat) (p : List Nat) :
    ∀ (i : Nat) (rest name : List Nat), s.data.drop (off + i) = p ++ rest →
      copyLabel s off p.length i name = .ok (name ++ p) := by
  induction p with
  | nil => intro i rest name _; simp [copyLabel]
  | cons c cs ih =>
    intro i rest name h
    have hc : s.index (off + i) = .ok c := index_of_drop s (off + i) c (cs ++ rest) h
    have hd : s.data.drop (off + (i + 1)) = cs ++ rest := by
      have := drop_add_of_drop (a := [c]) (b := cs ++ rest) h
      simpa [Nat.add_assoc] using this
    simp only [List.length_cons, copyLabel, hc, Res.bind]
    rw [ih (i + 1) rest (name ++ [c]) hd]
    simp

/-- A label length between 1 and 63 is neither the terminator nor a pointer. -/
theorem label_byte (n : Nat) (h0 : 0 < n) (h : n ≤ 63) : n ≠ 0 ∧ n &&& 0xC0 ≠ 0xC0 := by
  refine ⟨by omega, fun e => ?_⟩
  have := Nat.and_le_left (n := n) (m := 0xC0)
  omega

/-- Decoding a run of labels of length 1 to 63 followed by a zero byte: the loop appends
every label with a dot, stops on the zero byte, and leaves `pointer` alone. -/
theorem decodeNameLoop_labels (s : Slice) (labels : List (List Nat)) :
    ∀ (off fuel : Nat) (name post : List Nat) (ptr : Nat),
      (∀ p ∈ labels, 0 < p.length ∧ p.length ≤ 63) →
      labels.length < fuel →
      s.data.drop off = encodedLabels labels ++ 0 :: post →
      (s.index off).bind (fun b => decodeNameLoop s fuel b ⟨name, off, ptr⟩)
        = .ok ⟨name ++ dotted labels, off + (encodedLabels labels).length, ptr⟩ := by
  induction labels with
  | nil =>
    intro off fuel name post ptr _ hf hd
    rw [index_of_drop s off 0 post (by simpa [encodedLabels] using hd)]
    obtain ⟨f, rfl⟩ : ∃ f, fuel = f + 1 := ⟨fuel - 1, by simp at hf; omega⟩
    simp [Res.bind, decodeNameLoop, dotted, encodedLabels]
  | cons p ps ih =>
    intro off fuel name post ptr hl hf hd
    obtain ⟨f, rfl⟩ : ∃ f, fuel = f + 1 := ⟨fuel - 1, by simp at hf; omega⟩
    have hp := hl p (List.mem_cons_self _ _)
    have hps : ∀ q ∈ ps, 0 < q.length ∧ q.length ≤ 63 :=
      fun q hq => hl q (List.mem_cons_of_mem _ hq)
    have hd1 : s.data.drop off = p.length :: (p ++ (encodedLabels ps ++ 0 :: post)) := by
      simpa [encodedLabels] using hd
    have hb := label_byte p.length hp.1 hp.2
    have hcopy : copyLabel s off p.length 1 name = .ok (name ++ p) :=
      copyLabel_ok s off p 1 (encodedLabels ps ++ 0 :: post) name
        (by simpa using drop_add_of_drop (a := [p.length]) hd1)
    have hd2 : s.data.drop (off + (p.length + 1)) = encodedLabels ps ++ 0 :: post := by
      have := drop_add_of_drop (a := p.length :: p) (b := encodedLabels ps ++ 0 :: post)
        (by simpa using hd1)
      simpa using this
    rw [index_of_drop s off _ _ hd1]
    simp only [Res.bind, decodeNameLoop, if_neg hb.1, if_neg hb.2, hcopy]
    have := ih (off + (p.length + 1)) f (name ++ p ++ [46]) post ptr hps
      (by simp at hf; omega) hd2
    simp only [Res.bind] at this
    rw [this]
    simp [dotted, encodedLabels, Nat.add_assoc, Nat.add_comm, Nat.add_left_comm]

/-- Once the loop has stopped (returned or panicked) within a budget, a larger budget
changes nothing. -/
theorem decodeNameLoop_succ (s : Slice) :
    ∀ (fuel b : Nat) (st : NameState), decodeNameLoop s fuel b st ≠ .spin →
      decodeNameLoop s (fuel + 1) b st = decodeNameLoop s fuel b st := by
  intro fuel
  induction fuel with
  | zero => intro b st h; exact absurd rfl h
  | succ f ih =>
    intro b st h
    rw [decodeNameLoop] at h ⊢
    rw [decodeNameLoop.eq_def s (f + 1) b st]
    by_cases hb : b = 0
    · simp [hb]
    · simp only [if_neg hb] at h ⊢
      by_cases hptr : b &&& 0xC0 = 0xC0
      · simp only [if_pos hptr] at h ⊢
        cases h16 : (s.slice st.offset (st.offset + 2)).bind bytesToUint16 with
        | panic => simp [Res.bind]
        | spin => simp [Res.bind]
        | ok pointer =>
          rw [h16] at h
          simp only [Res.bind] at h ⊢
          cases hi : s.index (pointer &&& 0x3FFF) with
          | panic => simp
          | spin => simp
          | ok b2 =>
            rw [hi] at h
            simp only at h ⊢
            exact ih _ _ h
      · simp only [if_neg hptr] at h ⊢
        cases hcp : copyLabel s st.offset b 1 st.name with
        | panic => simp [Res.bind]
        | spin => simp [Res.bind]
        | ok name =>
          rw [hcp] at h
          simp only [Res.bind] at h ⊢
          cases hi : s.index (st.offset + (b + 1)) with
          | panic => simp
          | spin => simp
          | ok b2 =>
            rw [hi] at h
            simp only at h ⊢
            exact ih _ _ h

theorem decodeNameLoop_add (s : Slice) (fuel b : Nat) (st : NameState)
    (h : decodeNameLoop s fuel b st ≠ .spin) (k : Nat) :
    decodeNameLoop s (fuel + k) b st = decodeNameLoop s fuel b st := by
  induction k with
  | zero => rfl
  | succ k ih =>
    rw [← Nat.add_assoc, decodeNameLoop_succ s (fuel + k) b st (by rw [ih]; exact h), ih]

/-- The outcome of a run that stops does not depend on the budget. -/
theorem decodeNameRun_add (s : Slice) (fuel : Nat) (name : List Nat) (pos : Nat)
    (h : decodeNameRun fuel s name pos ≠ .spin) (k : Nat) :
    decodeNameRun (fuel + k) s name pos = decodeNameRun fuel s name pos := by
  unfold decodeNameRun at h ⊢
  cases hi : s.index pos with
  | panic => simp [Res.bind]
  | spin => simp [Res.bind]
  | ok b =>
    rw [hi] at h
    simp only [Res.bind] at h ⊢
    exact decodeNameLoop_add s fuel b _ h k

theorem decodeNameRun_det (s : Slice) (f1 f2 : Nat) (name : List Nat) (pos : Nat)
    (r1 r2 : NameState) (h1 : decodeNameRun f1 s name pos = .ok r1)
    (h2 : decodeNameRun f2 s name pos = .ok r2) : r1 = r2 := by
  have e1 := decodeNameRun_add s f1 name pos (by rw [h1]; simp) f2
  have e2 := decodeNameRun_add s f2 name pos (by rw [h2]; simp) f1
  rw [Nat.add_comm, e1, h1] at e2
  rw [h2] at e2
  cases e2
  rfl

/-- The name part of an encoded question, as a slice. -/
theorem nameBytes_makeDNSQuestion (hostname : List Nat) (qType qClass : Nat)
    (spare : List Nat) (h : ∀ p ∈ splitDot hostname, p.length < 256) :
    (nameBytes (makeDNSQuestion hostname qType qClass) spare).data
      = encodedLabels (splitDot hostname) ++ [0] := by
  rw [makeDNSQuestion_eq hostname qType qClass h]
  unfold nameBytes
  simp only [List.length_append, List.length_cons, List.length_nil, Nat.add_sub_cancel]
  have : (encodedLabels (splitDot hostname)).length + (0 + 1)
      = (encodedLabels (splitDot hostname) ++ [0]).length := by simp
  rw [this, List.take_left]

/-- Decoding an encoded name from offset 0: the locals of `decodeName` when its loop is
left. -/
theorem decodeNameRun_encoded (hostname : List Nat) (qType qClass : Nat)
    (spare name : List Nat) (fuel : Nat)
    (hlab : ∀ p ∈ splitDot hostname, 0 < p.length ∧ p.length ≤ 63)
    (hfuel : (splitDot hostname).length < fuel) :
    decodeNameRun fuel (nameBytes (makeDNSQuestion hostname qType qClass) spare) name 0
      = .ok ⟨name ++ (hostname ++ [46]), hostname.length + 1, 0⟩ := by
  have hd := nameBytes_makeDNSQuestion hostname qType qClass spare
    (fun p hp => by have := hlab p hp; omega)
  have := decodeNameLoop_labels (nameBytes (makeDNSQuestion hostname qType qClass) spare)
    (splitDot hostname) 0 fuel name [] 0 hlab hfuel (by simpa using hd)
  rw [dotted_splitDot, length_encodedLabels_splitDot] at this
  unfold decodeNameRun
  rw [this]
  simp

/-! ## Pointers -/

theorem Res.ok_bind {α β : Type} (a : α) (f : α → Res β) : (Res.ok a).bind f = f a := rfl

theorem Res.panic_bind {α β : Type} (f : α → Res β) : (Res.panic : Res α).bind f = .panic :=
  rfl

theorem Res.spin_bind {α β : Type} (f : α → Res β) : (Res.spin : Res α).bind f = .spin :=
  rfl

theorem Res.bind_eq_ok {α β : Type} (x : Res α) (f : α → Res β) (b : β)
    (h : x.bind f = .ok b) : ∃ a, x = .ok a ∧ f a = .ok b := by
  cases x with
  | ok a => exact ⟨a, rfl, h⟩
  | panic => cases h
  | spin => cases h

/-- A 16-bit read that succeeds has read the two bytes of the backing array. -/
theorem read16_inv (s : Slice) (pos v : Nat)
    (h : (s.slice pos (pos + 2)).bind bytesToUint16 = .ok v) :
    ∃ b0 b1, s.backing[pos]? = some b0 ∧ s.backing[pos + 1]? = some b1
      ∧ v = (((b0 % 65536) <<< 8) % 65536) ||| (b1 % 65536) := by
  have hcap : pos + 2 ≤ s.backing.length := by
    by_contra hc
    have hlen : s.backing.length = s.cap := by simp [Slice.backing, Slice.cap]
    have : ¬ (pos ≤ pos + 2 ∧ pos + 2 ≤ s.cap) := by omega
    simp only [Slice.slice, if_neg this, Res.bind] at h
    cases h
  have h0 : s.backing[pos]? = some (s.backing[pos]) := List.getElem?_eq_getElem (by omega)
  have h1 : s.backing[pos + 1]? = some (s.backing[pos + 1]) :=
    List.getElem?_eq_getElem (by omega)
  refine ⟨_, _, h0, h1, ?_⟩
  rw [read16_ok s pos _ _ h0 h1] at h
  cases h
  rfl

/-- The bytes of a compression pointer, as the loop of `decodeName` sees them. -/
theorem isPointerTo_spec (s : Slice) (p target : Nat) (h : isPointerTo s p target = true) :
    ∃ a0, s.index p = .ok a0 ∧ a0 ≠ 0 ∧ a0 &&& 0xC0 = 0xC0
      ∧ ∃ raw, (s.slice p (p + 2)).bind bytesToUint16 = .ok raw ∧ raw ≠ 0
        ∧ raw &&& 0x3FFF = target := by
  unfold isPointerTo at h
  split at h
  · next a0 a1 e0 e1 =>
    simp only [Bool.and_eq_true, decide_eq_true_eq] at h
    obtain ⟨⟨⟨h0, h1⟩, h192⟩, ht⟩ := h
    have eb : s.backing[p]? = some a0 := by
      have hlt : p < s.data.length := by
        by_contra hc
        rw [List.getElem?_eq_none (by omega)] at e0
        cases e0
      rw [Slice.backing, List.getElem?_append_left hlt]
      exact e0
    refine ⟨a0, by simp [Slice.index, e0], by omega, ?_, a0 * 256 + a1, ?_, by omega, ?_⟩
    · interval_cases a0 <;> rfl
    · rw [read16_ok s p a0 a1 eb e1, be16_eq a0 a1 h0 h1]
    · rw [show (0x3FFF : Nat) = 2 ^ 14 - 1 from rfl, Nat.and_pow_two_sub_one_eq_mod]
      exact ht
  · cases h

/-- A byte with its top two bits set makes a non-zero 16-bit value. -/
theorem pointer_raw_ne_zero (b b1 : Nat) (h : b &&& 0xC0 = 0xC0) :
    (((b % 65536) <<< 8) % 65536) ||| (b1 % 65536) ≠ 0 := by
  intro e
  have h7 : b.testBit 7 = true := by
    have : (b &&& 0xC0).testBit 7 = true := by rw [h]; rfl
    rw [Nat.testBit_and] at this
    simp only [Bool.and_eq_true] at this
    exact this.1
  have h15 : ((((b % 65536) <<< 8) % 65536) ||| (b1 % 65536)).testBit 15 = true := by
    rw [Nat.testBit_lor, show (65536 : Nat) = 2 ^ 16 from rfl, Nat.testBit_mod_two_pow,
      Nat.testBit_shiftLeft, Nat.testBit_mod_two_pow]
    simp [h7]
  rw [e] at h15
  simp at h15

/-- A byte read by index is a byte of the backing array. -/
theorem index_backing (s : Slice) (i b : Nat) (h : s.index i = .ok b) :
    s.backing[i]? = some b := by
  unfold Slice.index at h
  split at h
  · next c e =>
    cases h
    have hlt : i < s.data.length := by
      by_contra hc
      rw [List.getElem?_eq_none (by omega)] at e
      cases e
    rw [Slice.backing, List.getElem?_append_left hlt]
    exact e
  · cases h

/-- Once `pointer` is non-zero it stays non-zero to the end of the loop (`b` being the
byte at the current offset, as it is throughout `decodeName`). -/
theorem decodeNameLoop_pointer_ne_zero (s : Slice) :
    ∀ (fuel b : Nat) (st r : NameState), s.index st.offset = .ok b →
      decodeNameLoop s fuel b st = .ok r → st.pointer ≠ 0 → r.pointer ≠ 0 := by
  intro fuel
  induction fuel with
  | zero => intro b st r _ h; cases h
  | succ f ih =>
    intro b st r hinv h hne
    rw [decodeNameLoop] at h
    by_cases hb : b = 0
    · simp only [if_pos hb] at h
      cases h
      exact hne
    · simp only [if_neg hb] at h
      by_cases hptr : b &&& 0xC0 = 0xC0
      · simp only [if_pos hptr] at h
        obtain ⟨raw, h16, h⟩ := Res.bind_eq_ok _ _ _ h
        obtain ⟨b2, hi2, h⟩ := Res.bind_eq_ok _ _ _ h
        obtain ⟨b0, b1, e0, _, hraw⟩ := read16_inv s st.offset raw h16
        refine ih _ _ _ hi2 h ?_
        show raw ≠ 0
        have e : b0 = b := by
          have := index_backing s st.offset b hinv
          rw [e0] at this
          exact Option.some.inj this
        rw [hraw, e]
        exact pointer_raw_ne_zero b b1 hptr
      · simp only [if_neg hptr] at h
        obtain ⟨name, _, h⟩ := Res.bind_eq_ok _ _ _ h
        obtain ⟨b2, hi2, h⟩ := Res.bind_eq_ok _ _ _ h
        exact ih _ _ _ hi2 h hne

/-- The name and the offset the loop ends with do not depend on the `pointer` it starts
with; a non-zero `pointer` at the start gives a non-zero `pointer` at the end. -/
theorem decodeNameLoop_pointer_indep (s : Slice) :
    ∀ (fuel b : Nat) (name : List Nat) (off ptr1 ptr2 : Nat) (r : NameState),
      s.index off = .ok b →
      decodeNameLoop s fuel b ⟨name, off, ptr1⟩ = .ok r → ptr2 ≠ 0 →
      ∃ r2, decodeNameLoop s fuel b ⟨name, off, ptr2⟩ = .ok r2
        ∧ r2.name = r.name ∧ r2.offset = r.offset ∧ r2.pointer ≠ 0 := by
  intro fuel
  induction fuel with
  | zero => intro b name off ptr1 ptr2 r _ h; cases h
  | succ f ih =>
    intro b name off ptr1 ptr2 r hinv h hne
    rw [decodeNameLoop] at h ⊢
    by_cases hb : b = 0
    · simp only [if_pos hb] at h ⊢
      cases h
      exact ⟨_, rfl, rfl, rfl, hne⟩
    · simp only [if_neg hb] at h ⊢
      by_cases hptr : b &&& 0xC0 = 0xC0
      · simp only [if_pos hptr] at h ⊢
        obtain ⟨raw, h16, h⟩ := Res.bind_eq_ok _ _ _ h
        obtain ⟨b2, hi2, h⟩ := Res.bind_eq_ok _ _ _ h
        rw [h16, Res.ok_bind]
        simp only [hi2, Res.ok_bind]
        refine ⟨r, h, rfl, rfl, ?_⟩
        refine decodeNameLoop_pointer_ne_zero s f b2 _ r hi2 h ?_
        show raw ≠ 0
        obtain ⟨b0, b1, e0, _, hraw⟩ := read16_inv s off raw h16
        have e : b0 = b := by
          have := index_backing s off b hinv
          rw [e0] at this
          exact Option.some.inj this
        rw [hraw, e]
        exact pointer_raw_ne_zero b b1 hptr
      · simp only [if_neg hptr] at h ⊢
        obtain ⟨nm, hcp, h⟩ := Res.bind_eq_ok _ _ _ h
        obtain ⟨b2, hi2, h⟩ := Res.bind_eq_ok _ _ _ h
        rw [hcp, Res.ok_bind]
        simp only [hi2, Res.ok_bind]
        exact ih b2 _ _ ptr1 ptr2 r hi2 h hne

/-- A pointer at `p` to `q` and a pointer at `q` back to `p` (`q = p` for a pointer to
itself): the loop entered at `p` is still running after any number of iterations. -/
theorem decodeNameLoop_cycle (s : Slice) (p q : Nat)
    (hp : isPointerTo s p q = true) (hq : isPointerTo s q p = true) :
    ∀ (fuel : Nat) (a0 : Nat) (name : List Nat) (ptr : Nat), s.index p = .ok a0 →
      decodeNameLoop s fuel a0 ⟨name, p, ptr⟩ = .spin := by
  obtain ⟨a0, hpi, hpne, hptop, rawp, hp16, _, hptgt⟩ := isPointerTo_spec s p q hp
  obtain ⟨c0, hqi, hqne, hqtop, rawq, hq16, _, hqtgt⟩ := isPointerTo_spec s q p hq
  intro fuel
  induction fuel using Nat.strong_induction_on with
  | _ fuel ih =>
    intro a name ptr ha
    have ea : a = a0 := by rw [hpi] at ha; cases ha; rfl
    subst ea
    match fuel with
    | 0 => rfl
    | 1 =>
      rw [decodeNameLoop]
      simp only [if_neg hpne, if_pos hptop, hp16, Res.ok_bind, hptgt, hqi]
      rfl
    | f + 2 =>
      rw [decodeNameLoop]
      simp only [if_neg hpne, if_pos hptop, hp16, Res.ok_bind, hptgt, hqi]
      rw [decodeNameLoop]
      simp only [if_neg hqne, if_pos hqtop, hq16, Res.ok_bind, hqtgt, hpi]
      exact ih f (by omega) a name rawq hpi

theorem decodeName_cycle (s : Slice) (p q : Nat)
    (hp : isPointerTo s p q = true) (hq : isPointerTo s q p = true) (fuel : Nat)
    (name : List Nat) : decodeName fuel s name p = .spin := by
  obtain ⟨a0, hpi, _⟩ := isPointerTo_spec s p q hp
  unfold decodeName decodeNameRun
  rw [hpi, Res.ok_bind, decodeNameLoop_cycle s p q hp hq fuel a0 name 0 hpi, Res.spin_bind]

/-! ## The message decoder -/

/-- A 16-bit read that succeeds over bytes gives the big-endian value at `pos`. -/
theorem read16_be (s : Slice) (pos v : Nat) (hb : ∀ b ∈ s.backing, b < 256)
    (h : (s.slice pos (pos + 2)).bind bytesToUint16 = .ok v) : v = be16At s.backing pos := by
  obtain ⟨b0, b1, e0, e1, hv⟩ := read16_inv s pos v h
  have h0 : b0 < 256 := hb b0 (List.getElem?_mem e0)
  have h1 : b1 < 256 := hb b1 (List.getElem?_mem e1)
  rw [hv, be16_eq b0 b1 h0 h1]
  simp [be16At, List.getD, e0, e1]

theorem decodeHeader_counts (s : Slice) (p : DNSPayload) (hb : ∀ b ∈ s.backing, b < 256)
    (h : decodeHeader s = .ok p) :
    p.QDCount = be16At s.backing 4 ∧ p.ANCount = be16At s.backing 6
      ∧ p.NSCount = be16At s.backing 8 ∧ p.ARCount = be16At s.backing 10 := by
  unfold decodeHeader at h
  obtain ⟨tx, _, h⟩ := Res.bind_eq_ok _ _ _ h
  obtain ⟨lf, _, h⟩ := Res.bind_eq_ok _ _ _ h
  obtain ⟨rf, _, h⟩ := Res.bind_eq_ok _ _ _ h
  obtain ⟨qd, hqd, h⟩ := Res.bind_eq_ok _ _ _ h
  obtain ⟨an, han, h⟩ := Res.bind_eq_ok _ _ _ h
  obtain ⟨ns, hns, h⟩ := Res.bind_eq_ok _ _ _ h
  obtain ⟨ar, har, h⟩ := Res.bind_eq_ok _ _ _ h
  cases h
  exact ⟨read16_be s 4 qd hb hqd, read16_be s 6 an hb han, read16_be s 8 ns hb hns,
    read16_be s 10 ar hb har⟩

theorem decodeQuestions_length (fuel : Nat) (s : Slice) :
    ∀ (n pos : Nat) (r : List DNSQuestion × Nat), decodeQuestions fuel s n pos = .ok r →
      r.1.length = n := by
  intro n
  induction n with
  | zero => intro pos r h; cases h; rfl
  | succ n ih =>
    intro pos r h
    rw [decodeQuestions] at h
    obtain ⟨q, _, h⟩ := Res.bind_eq_ok _ _ _ h
    obtain ⟨rs, hrs, h⟩ := Res.bind_eq_ok _ _ _ h
    cases h
    simp [ih _ _ hrs]

theorem decodeRecords_length (fuel : Nat) (s : Slice) :
    ∀ (n pos : Nat) (r : List DNSResourceRecord × Nat), decodeRecords fuel s n pos = .ok r →
      r.1.length = n := by
  intro n
  induction n with
  | zero => intro pos r h; cases h; rfl
  | succ n ih =>
    intro pos r h
    rw [decodeRecords] at h
    obtain ⟨q, _, h⟩ := Res.bind_eq_ok _ _ _ h
    obtain ⟨rs, hrs, h⟩ := Res.bind_eq_ok _ _ _ h
    cases h
    simp [ih _ _ hrs]

/-! ## The shape of a name -/

/-- A length byte that is neither the terminator nor a pointer makes the loop copy a
label: over a run of such labels the loop uses one iteration per label and goes on
from the byte behind them with `pointer` untouched. -/
theorem decodeNameLoop_labels_then (s : Slice) (labels : List (List Nat)) :
    ∀ (off f : Nat) (name rest : List Nat) (ptr : Nat),
      (∀ p ∈ labels, p.length ≠ 0 ∧ p.length &&& 0xC0 ≠ 0xC0) →
      s.data.drop off = encodedLabels labels ++ rest →
      (s.index off).bind (fun b => decodeNameLoop s (labels.length + f) b ⟨name, off, ptr⟩)
        = (s.index (off + (encodedLabels labels).length)).bind
            (fun b => decodeNameLoop s f b
              ⟨name ++ dotted labels, off + (encodedLabels labels).length, ptr⟩) := by
  induction labels with
  | nil =>
    intro off f name rest ptr _ _
    simp [encodedLabels, dotted]
  | cons p ps ih =>
    intro off f name rest ptr hl hd
    have hb := hl p (List.mem_cons_self _ _)
    have hps : ∀ q ∈ ps, q.length ≠ 0 ∧ q.length &&& 0xC0 ≠ 0xC0 :=
      fun q hq => hl q (List.mem_cons_of_mem _ hq)
    have hd1 : s.data.drop off = p.length :: (p ++ (encodedLabels ps ++ rest)) := by
      simpa [encodedLabels] using hd
    have hcopy : copyLabel s off p.length 1 name = .ok (name ++ p) :=
      copyLabel_ok s off p 1 (encodedLabels ps ++ rest) name
        (by simpa using drop_add_of_drop (a := [p.length]) hd1)
    have hd2 : s.data.drop (off + (p.length + 1)) = encodedLabels ps ++ rest := by
      have := drop_add_of_drop (a := p.length :: p) (b := encodedLabels ps ++ rest)
        (by simpa using hd1)
      simpa using this
    have e : (p :: ps).length + f = (ps.length + f) + 1 := by simp; omega
    rw [index_of_drop s off _ _ hd1, e]
    simp only [Res.bind, decodeNameLoop, if_neg hb.1, if_neg hb.2, hcopy]
    have := ih (off + (p.length + 1)) f (name ++ p ++ [46]) rest ptr hps hd2
    simp only [Res.bind] at this
    rw [this]
    have e2 : off + (p.length + 1) + (encodedLabels ps).length
        = off + (encodedLabels (p :: ps)).length := by
      simp [encodedLabels]; omega
    rw [e2]
    simp [dotted]

theorem drop_of_index (s : Slice) (k c : Nat) (h : s.index k = .ok c) :
    s.data.drop k = c :: s.data.drop (k + 1) := by
  unfold Slice.index at h
  split at h
  · next b e =>
    cases h
    obtain ⟨hlt, hb⟩ := List.getElem?_eq_some.mp e
    rw [List.drop_eq_getElem_cons hlt, hb]
  · cases h

/-- What the inner loop has copied when it ends: the `n` bytes of the buffer from
`offset + i`. -/
theorem copyLabel_inv (s : Slice) (off : Nat) :
    ∀ (n i : Nat) (name out : List Nat), copyLabel s off n i name = .ok out →
      ∃ p, p.length = n ∧ out = name ++ p
        ∧ s.data.drop (off + i) = p ++ s.data.drop (off + i + n) := by
  intro n
  induction n with
  | zero =>
    intro i name out h
    rw [copyLabel] at h
    cases h
    exact ⟨[], rfl, by simp, by simp⟩
  | succ n ih =>
    intro i name out h
    rw [copyLabel] at h
    obtain ⟨c, hc, h⟩ := Res.bind_eq_ok _ _ _ h
    obtain ⟨p, hp, hout, hd⟩ := ih (i + 1) (name ++ [c]) out h
    refine ⟨c :: p, by simp [hp], by simp [hout], ?_⟩
    rw [drop_of_index s (off + i) c hc]
    have e1 : off + i + 1 = off + (i + 1) := by omega
    have e2 : off + i + (n + 1) = off + (i + 1) + n := by omega
    rw [e1, hd, e2]
    rfl

/-- A loop that meets a pointer byte and ends has a non-zero `pointer` at the end. -/
theorem decodeNameLoop_pointer_first (s : Slice) (fuel c : Nat) (st r : NameState)
    (hi : s.index st.offset = .ok c) (hc : c &&& 0xC0 = 0xC0)
    (h : decodeNameLoop s fuel c st = .ok r) : r.pointer ≠ 0 := by
  cases fuel with
  | zero => cases h
  | succ f =>
    rw [decodeNameLoop] at h
    have hne : c ≠ 0 := by
      intro e
      rw [e] at hc
      exact absurd hc (by decide)
    simp only [if_neg hne, if_pos hc] at h
    obtain ⟨raw, h16, h⟩ := Res.bind_eq_ok _ _ _ h
    obtain ⟨b2, hi2, h⟩ := Res.bind_eq_ok _ _ _ h
    obtain ⟨b0, b1, e0, _, hraw⟩ := read16_inv s st.offset raw h16
    have e : b0 = c := by
      have := index_backing s st.offset c hi
      rw [e0] at this
      exact Option.some.inj this
    refine decodeNameLoop_pointer_ne_zero s f b2 _ r hi2 h ?_
    show raw ≠ 0
    rw [hraw, e]
    exact pointer_raw_ne_zero c b1 hc

/-- Every run of the loop that ends has read, from its start offset, a run of labels and
then either the zero byte (and `pointer` is as it was) or a pointer byte (and `pointer`
is non-zero). -/
theorem decodeNameLoop_shape (s : Slice) :
    ∀ (fuel b : Nat) (name : List Nat) (off : Nat) (st : NameState),
      s.index off = .ok b → decodeNameLoop s fuel b ⟨name, off, 0⟩ = .ok st →
      (∃ labels post, (∀ p ∈ labels, p.length ≠ 0 ∧ p.length &&& 0xC0 ≠ 0xC0)
          ∧ s.data.drop off = encodedLabels labels ++ 0 :: post
          ∧ st = ⟨name ++ dotted labels, off + (encodedLabels labels).length, 0⟩)
        ∨ (∃ labels c post, (∀ p ∈ labels, p.length ≠ 0 ∧ p.length &&& 0xC0 ≠ 0xC0)
          ∧ s.data.drop off = encodedLabels labels ++ c :: post
          ∧ c &&& 0xC0 = 0xC0 ∧ st.pointer ≠ 0) := by
  intro fuel
  induction fuel with
  | zero => intro b name off st _ h; cases h
  | succ f ih =>
    intro b name off st hi h
    have hd := drop_of_index s off b hi
    by_cases hb : b = 0
    · left
      rw [decodeNameLoop, if_pos hb] at h
      cases h
      refine ⟨[], s.data.drop (off + 1), by simp, ?_, by simp [dotted, encodedLabels]⟩
      rw [hd, hb]
      rfl
    · by_cases hptr : b &&& 0xC0 = 0xC0
      · right
        exact ⟨[], b, s.data.drop (off + 1), by simp, by rw [hd]; rfl, hptr,
          decodeNameLoop_pointer_first s (f + 1) b _ st hi hptr h⟩
      · rw [decodeNameLoop] at h
        simp only [if_neg hb, if_neg hptr] at h
        obtain ⟨nm, hcp, h⟩ := Res.bind_eq_ok _ _ _ h
        obtain ⟨b2, hi2, h⟩ := Res.bind_eq_ok _ _ _ h
        obtain ⟨p, hp, hnm, hdp⟩ := copyLabel_inv s off b 1 name nm hcp
        have hcons : s.data.drop off
            = (p.length :: p) ++ s.data.drop (off + (b + 1)) := by
          rw [hd, hdp, hp]
          simp [Nat.add_assoc, Nat.add_comm 1 b]
        have hlab : p.length ≠ 0 ∧ p.length &&& 0xC0 ≠ 0xC0 := by
          rw [hp]; exact ⟨hb, hptr⟩
        have hoff : ∀ k, off + (b + 1) + k = off + ((p.length :: p).length + k) := by
          intro k; simp [hp]; omega
        rcases ih b2 (nm ++ [46]) (off + (b + 1)) st hi2 h with
          ⟨labels, post, hl, hdl, hst⟩ | ⟨labels, c, post, hl, hdl, hc, hne⟩
        · left
          refine ⟨p :: labels, post, ?_, ?_, ?_⟩
          · intro q hq
            rcases List.mem_cons.mp hq with rfl | hq
            · exact hlab
            · exact hl q hq
          · rw [hcons, hdl]
            simp [encodedLabels]
          · rw [hst, hnm, hoff]
            simp [dotted, encodedLabels]
            omega
        · right
          refine ⟨p :: labels, c, post, ?_, ?_, hc, hne⟩
          · intro q hq
            rcases List.mem_cons.mp hq with rfl | hq
            · exact hlab
            · exact hl q hq
          · rw [hcons, hdl]
            simp [encodedLabels]

/-- The state in which the loop started at `pos` ends, when the bytes at `pos` are a run
of labels followed by the byte `c`: it is the state in which the loop entered at `c`,
behind the labels, ends. -/
theorem decodeNameRun_after_labels (s : Slice) (fuel pos : Nat) (name : List Nat)
    (st : NameState) (labels : List (List Nat)) (c : Nat) (post : List Nat)
    (hl : ∀ p ∈ labels, p.length ≠ 0 ∧ p.length &&& 0xC0 ≠ 0xC0)
    (hd : s.data.drop pos = encodedLabels labels ++ c :: post)
    (h : decodeNameRun fuel s name pos = .ok st) :
    s.index (pos + (encodedLabels labels).length) = .ok c
      ∧ decodeNameLoop s fuel c
          ⟨name ++ dotted labels, pos + (encodedLabels labels).length, 0⟩ = .ok st := by
  have hc : s.index (pos + (encodedLabels labels).length) = .ok c :=
    index_of_drop s _ c post (drop_add_of_drop hd)
  refine ⟨hc, ?_⟩
  have hbig := decodeNameRun_add s fuel name pos (by rw [h]; simp) labels.length
  rw [h, Nat.add_comm] at hbig
  unfold decodeNameRun at hbig
  rw [decodeNameLoop_labels_then s labels pos fuel name (c :: post) 0 hl hd, hc,
    Res.ok_bind] at hbig
  exact hbig

/-! ## Records -/

theorem be32_step (r n : Nat) (hr : r < 16777216) (hn : n < 256) :
    ((r <<< 8) % 4294967296) ||| (n % 4294967296) = r * 256 + n := by
  rw [Nat.mod_eq_of_lt (by omega : n < 4294967296), Nat.shiftLeft_eq,
    Nat.mod_eq_of_lt (by omega)]
  have h := Nat.mul_add_lt_is_or (show n < 2 ^ 8 from hn) r
  rw [Nat.mul_comm] at h
  exact h.symm

/-- A slice expression that succeeds yields the bytes of the backing array. -/
theorem slice_inv (s u : Slice) (lo hi : Nat) (h : s.slice lo hi = .ok u) :
    lo ≤ hi ∧ hi ≤ s.backing.length ∧ u.data = (s.backing.drop lo).take (hi - lo)
      ∧ u.data.length = hi - lo := by
  unfold Slice.slice at h
  have hlen : s.backing.length = s.cap := by simp [Slice.backing, Slice.cap]
  split at h
  · next hc =>
    cases h
    refine ⟨hc.1, by omega, rfl, ?_⟩
    simp only [List.length_take, List.length_drop]
    omega
  · cases h

theorem bytesToUint32_four (a b c d : Nat) (ex : List Nat) (ha : a < 256) (hb : b < 256)
    (hc : c < 256) (hd : d < 256) :
    bytesToUint32 ⟨[a, b, c, d], ex⟩ = .ok (a * 16777216 + b * 65536 + c * 256 + d) := by
  have hcap : 1 ≤ (⟨[a, b, c, d], ex⟩ : Slice).len
      ∧ (⟨[a, b, c, d], ex⟩ : Slice).len ≤ (⟨[a, b, c, d], ex⟩ : Slice).cap := by
    simp [Slice.len, Slice.cap]
  unfold bytesToUint32
  rw [Slice.slice, if_pos hcap]
  simp only [Slice.index, Slice.len, Slice.backing, Res.bind, List.length_cons,
    List.length_nil, List.getElem?_cons_zero, List.cons_append, List.nil_append,
    List.drop_succ_cons, List.drop_zero, Nat.reduceAdd, Nat.reduceSub, List.take,
    bytesToUint32Loop, List.foldl_cons, List.foldl_nil]
  rw [Nat.mod_eq_of_lt (by omega : a < 4294967296),
    be32_step _ _ (by omega) hb, be32_step _ _ (by omega) hc, be32_step _ _ (by omega) hd]
  have e : ((a * 256 + b) * 256 + c) * 256 + d = a * 16777216 + b * 65536 + c * 256 + d := by
    omega
  rw [e]

/-- A 32-bit read that succeeds over bytes gives the big-endian value at `pos`. -/
theorem read32_be (s : Slice) (pos v : Nat) (hb : ∀ b ∈ s.backing, b < 256)
    (h : (s.slice pos (pos + 4)).bind bytesToUint32 = .ok v) : v = be32At s.backing pos := by
  obtain ⟨u, hu, h⟩ := Res.bind_eq_ok _ _ _ h
  obtain ⟨_, hcap, hdata, _⟩ := slice_inv s u pos (pos + 4) hu
  have h4 : pos + 4 - pos = 4 := by omega
  rw [h4] at hdata
  have hd0 : s.backing.drop pos
      = s.backing[pos] :: s.backing[pos + 1] :: s.backing[pos + 2] :: s.backing[pos + 3]
        :: s.backing.drop (pos + 4) := by
    rw [List.drop_eq_getElem_cons (by omega : pos < s.backing.length),
      List.drop_eq_getElem_cons (by omega : pos + 1 < s.backing.length),
      List.drop_eq_getElem_cons (by omega : pos + 1 + 1 < s.backing.length),
      List.drop_eq_getElem_cons (by omega : pos + 1 + 1 + 1 < s.backing.length)]
  have hud : u.data = [s.backing[pos], s.backing[pos + 1], s.backing[pos + 2],
      s.backing[pos + 3]] := by
    rw [hdata, hd0]; rfl
  have b0 : s.backing[pos] < 256 := hb _ (List.getElem_mem _)
  have b1 : s.backing[pos + 1] < 256 := hb _ (List.getElem_mem _)
  have b2 : s.backing[pos + 2] < 256 := hb _ (List.getElem_mem _)
  have b3 : s.backing[pos + 3] < 256 := hb _ (List.getElem_mem _)
  obtain ⟨ud, ue⟩ := u
  simp only at hud
  rw [hud, bytesToUint32_four _ _ _ _ ue b0 b1 b2 b3] at h
  cases h
  have g : ∀ i (hi : i < s.backing.length), s.backing.getD i 0 = s.backing[i] := by
    intro i hi
    simp [List.getD, List.getElem?_eq_getElem hi]
  simp only [be32At, g pos (by omega), g (pos + 1) (by omega), g (pos + 2) (by omega),
    g (pos + 3) (by omega)]

/-- A 16-bit read within the capacity succeeds. -/
theorem read16_total (s : Slice) (pos : Nat) (h : pos + 2 ≤ s.cap) :
    ∃ v, (s.slice pos (pos + 2)).bind bytesToUint16 = .ok v := by
  have hlen : s.backing.length = s.cap := by simp [Slice.backing, Slice.cap]
  exact ⟨_, read16_ok s pos s.backing[pos] s.backing[pos + 1]
    (List.getElem?_eq_getElem (by omega)) (List.getElem?_eq_getElem (by omega))⟩

/-- A 32-bit read within the capacity succeeds. -/
theorem read32_total (s : Slice) (pos : Nat) (h : pos + 4 ≤ s.cap) :
    ∃ v, (s.slice pos (pos + 4)).bind bytesToUint32 = .ok v := by
  have hlen : s.backing.length = s.cap := by simp [Slice.backing, Slice.cap]
  have hc : pos ≤ pos + 4 ∧ pos + 4 ≤ s.cap := ⟨by omega, h⟩
  have hl : ((s.backing.drop pos).take (pos + 4 - pos)).length = 4 := by
    simp only [List.length_take, List.length_drop]; omega
  rw [Slice.slice, if_pos hc, Res.ok_bind]
  unfold bytesToUint32
  have h0 : (0 : Nat) < ((s.backing.drop pos).take (pos + 4 - pos)).length := by omega
  simp only [Slice.index, List.getElem?_eq_getElem h0, Res.ok_bind]
  have hc1 : 1 ≤ (⟨(s.backing.drop pos).take (pos + 4 - pos), s.backing.drop (pos + 4)⟩ :
        Slice).len
      ∧ (⟨(s.backing.drop pos).take (pos + 4 - pos), s.backing.drop (pos + 4)⟩ : Slice).len
        ≤ (⟨(s.backing.drop pos).take (pos + 4 - pos), s.backing.drop (pos + 4)⟩ :
          Slice).cap := by
    simp only [Slice.len, Slice.cap]; omega
  rw [Slice.slice, if_pos hc1, Res.ok_bind]
  exact ⟨_, rfl⟩

/-! ## The encoder without preconditions -/

theorem foldl_lengthPrefixed (parts : List (List Nat)) (acc : List Nat) :
    parts.foldl (fun question p => (question ++ [p.length % 256]) ++ p) acc
      = acc ++ lengthPrefixed parts := by
  induction parts generalizing acc with
  | nil => simp [lengthPrefixed]
  | cons p ps ih =>
    rw [List.foldl_cons, ih]
    simp [lengthPrefixed]

theorem makeDNSQuestion_eq_lengthPrefixed (hostname : List Nat) (qType qClass : Nat) :
    makeDNSQuestion hostname qType qClass
      = lengthPrefixed (splitDot hostname) ++ [0] ++ typeClassBytes qType qClass := by
  unfold makeDNSQuestion typeClassBytes
  simp only [hiByte_eq, loByte_eq]
  rw [foldl_lengthPrefixed]
  simp

theorem lengthPrefixed_append (xs ys : List (List Nat)) :
    lengthPrefixed (xs ++ ys) = lengthPrefixed xs ++ lengthPrefixed ys := by
  induction xs with
  | nil => rfl
  | cons p ps ih => simp [lengthPrefixed, ih]

theorem length_lengthPrefixed_splitDot (h : List Nat) :
    (lengthPrefixed (splitDot h)).length = h.length + 1 := by
  induction h with
  | nil => rfl
  | cons c cs ih =>
    unfold splitDot
    split
    · simp [lengthPrefixed, ih]
    · split
      · next hnil => exact absurd hnil (splitDot_ne_nil cs)
      · next p ps hps =>
        rw [hps] at ih
        simp only [lengthPrefixed, List.length_cons, List.length_append] at ih ⊢
        omega

/-- Splitting at a dot: the parts before it, then the parts behind it. -/
theorem splitDot_append_dot (a b : List Nat) :
    splitDot (a ++ 46 :: b) = splitDot a ++ splitDot b := by
  induction a with
  | nil => simp [splitDot]
  | cons c cs ih =>
    by_cases hc : c = 46
    · subst hc
      have e1 : splitDot (46 :: (cs ++ 46 :: b)) = [] :: splitDot (cs ++ 46 :: b) := by
        rw [splitDot, if_pos rfl]
      have e2 : splitDot (46 :: cs) = [] :: splitDot cs := by
        rw [splitDot, if_pos rfl]
      rw [List.cons_append, e1, e2, ih]
      rfl
    · have e1 : splitDot (c :: (cs ++ 46 :: b))
          = match splitDot (cs ++ 46 :: b) with
            | [] => [[c]]
            | p :: ps => (c :: p) :: ps := by
        rw [splitDot, if_neg hc]
      have e2 : splitDot (c :: cs)
          = match splitDot cs with
            | [] => [[c]]
            | p :: ps => (c :: p) :: ps := by
        rw [splitDot, if_neg hc]
      rw [List.cons_append, e1, e2, ih]
      cases hcs : splitDot cs with
      | nil => exact absurd hcs (splitDot_ne_nil cs)
      | cons p ps => rfl

/-! ## Short buffers -/

theorem index_ok_iff (s : Slice) (i : Nat) : (∃ b, s.index i = .ok b) ↔ i < s.len := by
  unfold Slice.index Slice.len
  constructor
  · rintro ⟨b, h⟩
    split at h
    · next c e => exact (List.getElem?_eq_some.mp e).1
    · cases h
  · intro h
    rw [List.getElem?_eq_getElem h]
    exact ⟨_, rfl⟩

theorem index_panic_of_le (s : Slice) (i : Nat) (h : s.len ≤ i) : s.index i = .panic := by
  unfold Slice.index
  rw [List.getElem?_eq_none (by simpa [Slice.len] using h)]

theorem read16_panic (s : Slice) (pos : Nat) (h : s.cap < pos + 2) :
    (s.slice pos (pos + 2)).bind bytesToUint16 = .panic := by
  have hno : ¬ (pos ≤ pos + 2 ∧ pos + 2 ≤ s.cap) := by omega
  rw [Slice.slice, if_neg hno, Res.panic_bind]

/-- The function `decodeHeader` returns a payload when the buffer has at least 4 bytes and a
capacity of at least 12, and panics otherwise. -/
theorem decodeHeader_cases (s : Slice) :
    (4 ≤ s.len ∧ 12 ≤ s.cap → ∃ p, decodeHeader s = .ok p)
      ∧ (s.len < 4 ∨ s.cap < 12 → decodeHeader s = .panic) := by
  have hlc : s.len ≤ s.cap := by simp [Slice.len, Slice.cap]
  constructor
  · rintro ⟨hl, hc⟩
    obtain ⟨tx, h0⟩ := read16_total s 0 (by omega)
    obtain ⟨lf, h2⟩ := (index_ok_iff s 2).mpr (by omega)
    obtain ⟨rf, h3⟩ := (index_ok_iff s 3).mpr (by omega)
    obtain ⟨qd, h4⟩ := read16_total s 4 (by omega)
    obtain ⟨an, h6⟩ := read16_total s 6 (by omega)
    obtain ⟨ns, h8⟩ := read16_total s 8 (by omega)
    obtain ⟨ar, h10⟩ := read16_total s 10 (by omega)
    unfold decodeHeader
    simp only [h0, h2, h3, h4, h6, h8, h10, Res.ok_bind]
    exact ⟨_, rfl⟩
  · intro h
    unfold decodeHeader
    by_cases c2 : s.cap < 2
    · rw [read16_panic s 0 (by omega), Res.panic_bind]
    obtain ⟨tx, h0⟩ := read16_total s 0 (by omega)
    rw [h0, Res.ok_bind]
    by_cases l3 : s.len ≤ 2
    · rw [index_panic_of_le s 2 l3, Res.panic_bind]
    obtain ⟨lf, h2⟩ := (index_ok_iff s 2).mpr (by omega)
    rw [h2, Res.ok_bind]
    by_cases l4 : s.len ≤ 3
    · rw [index_panic_of_le s 3 l4, Res.panic_bind]
    obtain ⟨rf, h3⟩ := (index_ok_iff s 3).mpr (by omega)
    rw [h3, Res.ok_bind]
    by_cases c6 : s.cap < 6
    · rw [read16_panic s 4 (by omega), Res.panic_bind]
    obtain ⟨qd, h4⟩ := read16_total s 4 (by omega)
    rw [h4, Res.ok_bind]
    by_cases c8 : s.cap < 8
    · rw [read16_panic s 6 (by omega), Res.panic_bind]
    obtain ⟨an, h6⟩ := read16_total s 6 (by omega)
    rw [h6, Res.ok_bind]
    by_cases c10 : s.cap < 10
    · rw [read16_panic s 8 (by omega), Res.panic_bind]
    obtain ⟨ns, h8⟩ := read16_total s 8 (by omega)
    rw [h8, Res.ok_bind]
    rw [read16_panic s 10 (by omega), Res.panic_bind]

/-! ## Decoding an encoded query -/

theorem backing_drop_of_data_drop (s : Slice) (off : Nat) (c : Nat) (t : List Nat)
    (h : s.data.drop off = c :: t) : s.backing.drop off = c :: (t ++ s.extra) := by
  have hle : off ≤ s.data.length := by
    by_contra hc
    rw [List.drop_eq_nil_of_le (by omega)] at h
    cases h
  rw [Slice.backing, List.drop_append_of_le_length hle, h]
  rfl

theorem getElem?_of_drop_two (l : List Nat) (n a b : Nat) (t : List Nat)
    (h : l.drop n = a :: b :: t) : l[n]? = some a ∧ l[n + 1]? = some b := by
  have h0 := List.getElem?_drop l n 0
  have h1 := List.getElem?_drop l n 1
  rw [h] at h0 h1
  exact ⟨by simpa using h0.symm, by simpa using h1.symm⟩

/-- Decoding a question that lies in the buffer as labels of length 1 to 63, the zero
byte, and four type and class bytes. -/
theorem decodeQuestion_encoded (s : Slice) (off fuel : Nat) (labels : List (List Nat))
    (t1 t2 c1 c2 : Nat) (post : List Nat)
    (hlab : ∀ p ∈ labels, 0 < p.length ∧ p.length ≤ 63)
    (hfuel : labels.length < fuel)
    (ht1 : t1 < 256) (ht2 : t2 < 256) (hc1 : c1 < 256) (hc2 : c2 < 256)
    (hd : s.data.drop off = encodedLabels labels ++ 0 :: t1 :: t2 :: c1 :: c2 :: post) :
    decodeQuestion fuel s off
      = .ok ({ Type_ := t1 * 256 + t2, Class := c1 * 256 + c2, Name := [] },
             off + (encodedLabels labels).length + 1 + 4) := by
  have hrun := decodeNameLoop_labels s labels off fuel [] (t1 :: t2 :: c1 :: c2 :: post) 0
    hlab hfuel hd
  have hz : s.data.drop (off + (encodedLabels labels).length)
      = 0 :: t1 :: t2 :: c1 :: c2 :: post := drop_add_of_drop hd
  have ht : s.data.drop (off + (encodedLabels labels).length + 1)
      = t1 :: t2 :: c1 :: c2 :: post := by
    have := drop_add_of_drop (a := [0]) (b := t1 :: t2 :: c1 :: c2 :: post) hz
    simpa using this
  have hbt := backing_drop_of_data_drop s _ _ _ ht
  have hc : s.backing.drop (off + (encodedLabels labels).length + 1 + 2)
      = c1 :: c2 :: (post ++ s.extra) := by
    have := drop_add_of_drop (a := [t1, t2]) (b := c1 :: c2 :: (post ++ s.extra))
      (by simpa using hbt)
    simpa using this
  obtain ⟨e1, e2⟩ := getElem?_of_drop_two _ _ _ _ _ hbt
  obtain ⟨e3, e4⟩ := getElem?_of_drop_two _ _ _ _ _ hc
  have hname : decodeName fuel s [] off = .ok (off + (encodedLabels labels).length + 1) := by
    unfold decodeName decodeNameRun
    rw [hrun]
    rfl
  have hty : (s.slice (off + (encodedLabels labels).length + 1)
      (off + (encodedLabels labels).length + 1 + 2)).bind bytesToUint16
      = .ok (t1 * 256 + t2) := by
    rw [read16_ok s _ t1 t2 e1 e2, be16_eq t1 t2 ht1 ht2]
  have hcl : (s.slice (off + (encodedLabels labels).length + 1 + 2)
      (off + (encodedLabels labels).length + 1 + 4)).bind bytesToUint16
      = .ok (c1 * 256 + c2) := by
    have := read16_ok s (off + (encodedLabels labels).length + 1 + 2) c1 c2 e3 e4
    rw [be16_eq c1 c2 hc1 hc2] at this
    exact this
  unfold decodeQuestion
  simp only [hname, Res.ok_bind, hty, hcl]

/-! ## Truncated buffers -/

theorem decodeResponse_eq_cursor (fuel : Nat) (s : Slice) :
    decodeResponse fuel s = (decodeResponseCursor fuel s).bind fun r => .ok r.1 := by
  unfold decodeResponse decodeResponseCursor
  cases decodeHeader s with
  | panic => rfl
  | spin => rfl
  | ok payload =>
    simp only [Res.ok_bind]
    cases decodeQuestions fuel s payload.QDCount 12 with
    | panic => rfl
    | spin => rfl
    | ok qs =>
      simp only [Res.ok_bind]
      cases decodeRecords fuel s (payload.ANCount + payload.NSCount + payload.ARCount) qs.2 with
      | panic => rfl
      | spin => rfl
      | ok rs => rfl

theorem Follows.bind {α β : Type} {x y : Res α} {f g : α → Res β} (h : Follows x y)
    (hf : ∀ a, Follows (f a) (g a)) : Follows (x.bind f) (y.bind g) := by
  rcases h with h | h
  · left; rw [h]; rfl
  · rw [h]
    cases y with
    | ok a => exact hf a
    | panic => left; rfl
    | spin => right; rfl

theorem Follows.refl {α : Type} (x : Res α) : Follows x x := Or.inr rfl

theorem follows_index {t s : Slice} (h : t.Begins s) (i : Nat) :
    Follows (t.index i) (s.index i) := by
  obtain ⟨⟨more, hd⟩, _⟩ := h
  by_cases hi : i < t.data.length
  · right
    unfold Slice.index
    rw [hd, List.getElem?_append_left hi]
  · left
    exact index_panic_of_le t i (by simpa [Slice.len] using hi)

/-- A slice expression that succeeds on the beginning of a buffer succeeds on the buffer,
with the same bytes. -/
theorem begins_slice {t s : Slice} (h : t.Begins s) (lo hi : Nat) :
    t.slice lo hi = .panic
      ∨ ∃ u v, t.slice lo hi = .ok u ∧ s.slice lo hi = .ok v ∧ u.data = v.data := by
  obtain ⟨_, ⟨more, hb⟩⟩ := h
  have htl : t.backing.length = t.cap := by simp [Slice.backing, Slice.cap]
  have hsl : s.backing.length = s.cap := by simp [Slice.backing, Slice.cap]
  have hle : t.cap ≤ s.cap := by
    rw [← htl, ← hsl, hb, List.length_append]; omega
  by_cases hc : lo ≤ hi ∧ hi ≤ t.cap
  · right
    have hc2 : lo ≤ hi ∧ hi ≤ s.cap := ⟨hc.1, by omega⟩
    refine ⟨_, _, by rw [Slice.slice, if_pos hc], by rw [Slice.slice, if_pos hc2], ?_⟩
    show (t.backing.drop lo).take (hi - lo) = (s.backing.drop lo).take (hi - lo)
    rw [hb, List.drop_append_of_le_length (by omega),
      List.take_append_of_le_length (by rw [List.length_drop]; omega)]
  · left
    rw [Slice.slice, if_neg hc]

theorem bytesToUint16_congr (u v : Slice) (h : u.data = v.data) :
    bytesToUint16 u = bytesToUint16 v := by
  unfold bytesToUint16 Slice.index
  rw [h]

theorem slice_tail_data (u : Slice) (h : 1 ≤ u.len) :
    u.slice 1 u.len = .ok ⟨u.data.drop 1, u.backing.drop u.len⟩ := by
  have hc : 1 ≤ u.len ∧ u.len ≤ u.cap := ⟨h, by simp [Slice.len, Slice.cap]⟩
  rw [Slice.slice, if_pos hc]
  have e : (u.backing.drop 1).take (u.len - 1) = u.data.drop 1 := by
    unfold Slice.backing Slice.len
    rw [List.drop_append_of_le_length (by simpa [Slice.len] using h),
      List.take_append_of_le_length (by rw [List.length_drop])]
    exact List.take_of_length_le (by rw [List.length_drop])
  rw [e]

theorem bytesToUint32_congr (u v : Slice) (h : u.data = v.data) :
    bytesToUint32 u = bytesToUint32 v := by
  have hlen : u.len = v.len := by simp [Slice.len, h]
  by_cases h1 : 1 ≤ u.len
  · unfold bytesToUint32
    rw [slice_tail_data u h1, slice_tail_data v (by omega)]
    unfold Slice.index
    rw [h]
    rfl
  · unfold bytesToUint32
    rw [index_panic_of_le u 0 (by omega), index_panic_of_le v 0 (by omega)]
    rfl

theorem follows_read16 {t s : Slice} (h : t.Begins s) (pos : Nat) :
    Follows ((t.slice pos (pos + 2)).bind bytesToUint16)
      ((s.slice pos (pos + 2)).bind bytesToUint16) := by
  rcases begins_slice h pos (pos + 2) with hp | ⟨u, v, hu, hv, hd⟩
  · left; rw [hp]; rfl
  · right
    rw [hu, hv, Res.ok_bind, Res.ok_bind, bytesToUint16_congr u v hd]

theorem follows_read32 {t s : Slice} (h : t.Begins s) (pos : Nat) :
    Follows ((t.slice pos (pos + 4)).bind bytesToUint32)
      ((s.slice pos (pos + 4)).bind bytesToUint32) := by
  rcases begins_slice h pos (pos + 4) with hp | ⟨u, v, hu, hv, hd⟩
  · left; rw [hp]; rfl
  · right
    rw [hu, hv, Res.ok_bind, Res.ok_bind, bytesToUint32_congr u v hd]

theorem follows_copyLabel {t s : Slice} (h : t.Begins s) (off : Nat) :
    ∀ (n i : Nat) (name : List Nat),
      Follows (copyLabel t off n i name) (copyLabel s off n i name) := by
  intro n
  induction n with
  | zero => intro i name; exact Follows.refl _
  | succ n ih =>
    intro i name
    rw [copyLabel, copyLabel]
    exact Follows.bind (follows_index h _) (fun c => ih _ _)

theorem follows_decodeNameLoop {t s : Slice} (h : t.Begins s) :
    ∀ (fuel b : Nat) (st : NameState),
      Follows (decodeNameLoop t fuel b st) (decodeNameLoop s fuel b st) := by
  intro fuel
  induction fuel with
  | zero => intro b st; exact Follows.refl _
  | succ f ih =>
    intro b st
    rw [decodeNameLoop, decodeNameLoop]
    by_cases hb : b = 0
    · rw [if_pos hb, if_pos hb]; exact Follows.refl _
    · rw [if_neg hb, if_neg hb]
      by_cases hp : b &&& 0xC0 = 0xC0
      · rw [if_pos hp, if_pos hp]
        exact Follows.bind (follows_read16 h _)
          (fun pointer => Follows.bind (follows_index h _) (fun b2 => ih _ _))
      · rw [if_neg hp, if_neg hp]
        exact Follows.bind (follows_copyLabel h _ _ _ _)
          (fun name => Follows.bind (follows_index h _) (fun b2 => ih _ _))

theorem follows_decodeName {t s : Slice} (h : t.Begins s) (fuel : Nat) (name : List Nat)
    (pos : Nat) : Follows (decodeName fuel t name pos) (decodeName fuel s name pos) := by
  unfold decodeName decodeNameRun
  exact Follows.bind (Follows.bind (follows_index h _) (fun b => follows_decodeNameLoop h _ _ _))
    (fun st => Follows.refl _)

theorem follows_decodeQuestion {t s : Slice} (h : t.Begins s) (fuel pos : Nat) :
    Follows (decodeQuestion fuel t pos) (decodeQuestion fuel s pos) := by
  unfold decodeQuestion
  exact Follows.bind (follows_decodeName h _ _ _)
    (fun e => Follows.bind (follows_read16 h _)
      (fun ty => Follows.bind (follows_read16 h _) (fun cls => Follows.refl _)))

theorem follows_decodeRecord {t s : Slice} (h : t.Begins s) (fuel pos : Nat) :
    Follows (decodeRecord fuel t pos) (decodeRecord fuel s pos) := by
  unfold decodeRecord
  refine Follows.bind (follows_decodeName h _ _ _)
    (fun e => Follows.bind (follows_read16 h _)
      (fun ty => Follows.bind (follows_read16 h _)
        (fun cls => Follows.bind (follows_read32 h _)
          (fun ttl => Follows.bind (follows_read16 h _) (fun rdl => ?_)))))
  rcases begins_slice h (e + 10) (e + 10 + rdl) with hp | ⟨u, v, hu, hv, hd⟩
  · left
    simp only [hp, Res.panic_bind]
  · right
    simp only [hu, hv, Res.ok_bind, hd]

theorem follows_decodeQuestions {t s : Slice} (h : t.Begins s) (fuel : Nat) :
    ∀ (n pos : Nat), Follows (decodeQuestions fuel t n pos) (decodeQuestions fuel s n pos) := by
  intro n
  induction n with
  | zero => intro pos; exact Follows.refl _
  | succ n ih =>
    intro pos
    rw [decodeQuestions, decodeQuestions]
    exact Follows.bind (follows_decodeQuestion h _ _)
      (fun r => Follows.bind (ih _) (fun rs => Follows.refl _))

theorem follows_decodeRecords {t s : Slice} (h : t.Begins s) (fuel : Nat) :
    ∀ (n pos : Nat), Follows (decodeRecords fuel t n pos) (decodeRecords fuel s n pos) := by
  intro n
  induction n with
  | zero => intro pos; exact Follows.refl _
  | succ n ih =>
    intro pos
    rw [decodeRecords, decodeRecords]
    exact Follows.bind (follows_decodeRecord h _ _)
      (fun r => Follows.bind (ih _) (fun rs => Follows.refl _))

theorem Follows.ok {α : Type} {x y : Res α} {a : α} (h : Follows x y) (hx : x = .ok a) :
    y = .ok a := by
  rcases h with hp | he
  · rw [hp] at hx; cases hx
  · rw [← he]; exact hx

theorem Follows.spin {α : Type} {x y : Res α} (h : Follows x y) (hx : x = .spin) :
    y = .spin := by
  rcases h with hp | he
  · rw [hp] at hx; cases hx
  · rw [← he]; exact hx

/-- A header decoded from the beginning of a buffer is the header of the buffer, but for
`Size`. -/
theorem decodeHeader_begins {t s : Slice} (h : t.Begins s) (pt : DNSPayload)
    (ht : decodeHeader t = .ok pt) : decodeHeader s = .ok { pt with Size := s.len } := by
  unfold decodeHeader at ht
  obtain ⟨tx, h0, ht⟩ := Res.bind_eq_ok _ _ _ ht
  obtain ⟨lf, h2, ht⟩ := Res.bind_eq_ok _ _ _ ht
  obtain ⟨rf, h3, ht⟩ := Res.bind_eq_ok _ _ _ ht
  obtain ⟨qd, h4, ht⟩ := Res.bind_eq_ok _ _ _ ht
  obtain ⟨an, h6, ht⟩ := Res.bind_eq_ok _ _ _ ht
  obtain ⟨ns, h8, ht⟩ := Res.bind_eq_ok _ _ _ ht
  obtain ⟨ar, h10, ht⟩ := Res.bind_eq_ok _ _ _ ht
  cases ht
  have s0 := (follows_read16 h 0).ok h0
  have s2 := (follows_index h 2).ok h2
  have s3 := (follows_index h 3).ok h3
  have s4 := (follows_read16 h 4).ok h4
  have s6 := (follows_read16 h 6).ok h6
  have s8 := (follows_read16 h 8).ok h8
  have s10 := (follows_read16 h 10).ok h10
  unfold decodeHeader
  simp only [s0, s2, s3, s4, s6, s8, s10, Res.ok_bind]

/-- When the decode of the beginning of a buffer returns, the decode of the buffer returns
with the same cursor. -/
theorem decodeResponseCursor_begins {t s : Slice} (h : t.Begins s) (fuel : Nat)
    (pt : DNSPayload) (c : Nat) (ht : decodeResponseCursor fuel t = .ok (pt, c)) :
    ∃ ps, decodeResponseCursor fuel s = .ok (ps, c) := by
  unfold decodeResponseCursor at ht ⊢
  obtain ⟨ht0, hth, ht⟩ := Res.bind_eq_ok _ _ _ ht
  obtain ⟨qs, hqs, ht⟩ := Res.bind_eq_ok _ _ _ ht
  obtain ⟨rs, hrs, ht⟩ := Res.bind_eq_ok _ _ _ ht
  cases ht
  have sq := (follows_decodeQuestions h fuel _ _).ok hqs
  have sr := (follows_decodeRecords h fuel _ _).ok hrs
  simp only [decodeHeader_begins h ht0 hth, Res.ok_bind, sq, sr]
  exact ⟨_, rfl⟩

/-- When the decode of the beginning of a buffer is still running, so is the decode of the
buffer. -/
theorem decodeResponseCursor_begins_spin {t s : Slice} (h : t.Begins s) (fuel : Nat)
    (ht : decodeResponseCursor fuel t = .spin) : decodeResponseCursor fuel s = .spin := by
  unfold decodeResponseCursor at ht ⊢
  cases hh : decodeHeader t with
  | panic => rw [hh] at ht; cases ht
  | spin =>
    rcases Nat.lt_or_ge t.len 4 with h4 | h4
    · rw [(decodeHeader_cases t).2 (Or.inl h4)] at hh; cases hh
    · rcases Nat.lt_or_ge t.cap 12 with h12 | h12
      · rw [(decodeHeader_cases t).2 (Or.inr h12)] at hh; cases hh
      · obtain ⟨p, hp⟩ := (decodeHeader_cases t).1 ⟨h4, h12⟩
        rw [hp] at hh; cases hh
  | ok pt =>
    simp only [hh, Res.ok_bind] at ht
    simp only [decodeHeader_begins h pt hh, Res.ok_bind]
    cases hq : decodeQuestions fuel t pt.QDCount 12 with
    | panic => simp only [hq, Res.panic_bind] at ht; cases ht
    | spin =>
      have := (follows_decodeQuestions h fuel pt.QDCount 12).spin hq
      simp only [this, Res.spin_bind]
    | ok qs =>
      simp only [hq, Res.ok_bind] at ht
      have sq := (follows_decodeQuestions h fuel pt.QDCount 12).ok hq
      simp only [sq, Res.ok_bind]
      cases hr : decodeRecords fuel t (pt.ANCount + pt.NSCount + pt.ARCount) qs.2 with
      | panic => simp only [hr, Res.panic_bind] at ht; cases ht
      | spin =>
        have := (follows_decodeRecords h fuel (pt.ANCount + pt.NSCount + pt.ARCount)
          qs.2).spin hr
        simp only [this, Res.spin_bind]
      | ok rs => simp only [hr, Res.ok_bind] at ht; cases ht

theorem FuelStable.const {α : Type} (x : Res α) : FuelStable (fun _ => x) :=
  fun _ _ _ => rfl

theorem FuelStable.andThen {α β : Type} {F : Nat → Res α} {G : α → Nat → Res β}
    (hF : FuelStable F) (hG : ∀ a, FuelStable (G a)) :
    FuelStable (fun fuel => (F fuel).bind fun a => G a fuel) := by
  intro fuel k h
  have hne : F fuel ≠ .spin := by
    intro e
    apply h
    show (F fuel).bind _ = .spin
    rw [e]; rfl
  show (F (fuel + k)).bind _ = (F fuel).bind _
  rw [hF fuel k hne]
  cases hx : F fuel with
  | panic => rfl
  | spin => exact absurd hx hne
  | ok a =>
    have hg : G a fuel ≠ .spin := by
      intro e
      apply h
      show (F fuel).bind _ = .spin
      rw [hx, Res.ok_bind, e]
    rw [Res.ok_bind, Res.ok_bind, hG a fuel k hg]

theorem FuelStable.det {α : Type} {F : Nat → Res α} (hF : FuelStable F) (f1 f2 : Nat)
    (a b : α) (h1 : F f1 = .ok a) (h2 : F f2 = .ok b) : a = b := by
  have e1 := hF f1 f2 (by rw [h1]; simp)
  have e2 := hF f2 f1 (by rw [h2]; simp)
  rw [Nat.add_comm, e1, h1, h2] at e2
  cases e2
  rfl

theorem decodeName_stable (s : Slice) (name : List Nat) (pos : Nat) :
    FuelStable (fun fuel => decodeName fuel s name pos) := by
  unfold decodeName
  exact FuelStable.andThen (fun fuel k h => decodeNameRun_add s fuel name pos h k)
    (fun st => FuelStable.const _)

theorem decodeQuestion_stable (s : Slice) (pos : Nat) :
    FuelStable (fun fuel => decodeQuestion fuel s pos) := by
  unfold decodeQuestion
  exact FuelStable.andThen (decodeName_stable s [] pos) (fun e => FuelStable.const _)

theorem decodeRecord_stable (s : Slice) (pos : Nat) :
    FuelStable (fun fuel => decodeRecord fuel s pos) := by
  unfold decodeRecord
  exact FuelStable.andThen (decodeName_stable s [] pos) (fun e => FuelStable.const _)

theorem decodeQuestions_stable (s : Slice) :
    ∀ (n pos : Nat), FuelStable (fun fuel => decodeQuestions fuel s n pos) := by
  intro n
  induction n with
  | zero => intro pos; exact FuelStable.const _
  | succ n ih =>
    intro pos
    simp only [decodeQuestions]
    exact FuelStable.andThen (decodeQuestion_stable s pos)
      (fun r => FuelStable.andThen (ih r.2) (fun rs => FuelStable.const _))

theorem decodeRecords_stable (s : Slice) :
    ∀ (n pos : Nat), FuelStable (fun fuel => decodeRecords fuel s n pos) := by
  intro n
  induction n with
  | zero => intro pos; exact FuelStable.const _
  | succ n ih =>
    intro pos
    simp only [decodeRecords]
    exact FuelStable.andThen (decodeRecord_stable s pos)
      (fun r => FuelStable.andThen (ih r.2) (fun rs => FuelStable.const _))

/-- A decode that returns returns the same message and cursor for every budget with
which it returns. -/
theorem decodeResponseCursor_stable (s : Slice) :
    FuelStable (fun fuel => decodeResponseCursor fuel s) := by
  unfold decodeResponseCursor
  exact FuelStable.andThen (FuelStable.const _)
    (fun payload => FuelStable.andThen (decodeQuestions_stable s _ _)
      (fun qs => FuelStable.andThen (decodeRecords_stable s _ _) (fun rs => FuelStable.const _)))

theorem read16_cap (s : Slice) (pos v : Nat)
    (h : (s.slice pos (pos + 2)).bind bytesToUint16 = .ok v) : pos + 2 ≤ s.cap := by
  obtain ⟨u, hu, _⟩ := Res.bind_eq_ok _ _ _ h
  obtain ⟨_, hcap, _, _⟩ := slice_inv s u _ _ hu
  simpa [Slice.backing, Slice.cap] using hcap

theorem decodeQuestion_cap (fuel : Nat) (s : Slice) (pos : Nat) (q : DNSQuestion) (n : Nat)
    (h : decodeQuestion fuel s pos = .ok (q, n)) : n ≤ s.cap := by
  unfold decodeQuestion at h
  obtain ⟨e, _, h⟩ := Res.bind_eq_ok _ _ _ h
  obtain ⟨ty, _, h⟩ := Res.bind_eq_ok _ _ _ h
  obtain ⟨cls, hcls, h⟩ := Res.bind_eq_ok _ _ _ h
  have := read16_cap s (e + 2) cls hcls
  cases h
  omega

theorem decodeRecord_cap (fuel : Nat) (s : Slice) (pos : Nat) (r : DNSResourceRecord)
    (n : Nat) (h : decodeRecord fuel s pos = .ok (r, n)) : n ≤ s.cap := by
  unfold decodeRecord at h
  obtain ⟨e, _, h⟩ := Res.bind_eq_ok _ _ _ h
  obtain ⟨ty, _, h⟩ := Res.bind_eq_ok _ _ _ h
  obtain ⟨cls, _, h⟩ := Res.bind_eq_ok _ _ _ h
  obtain ⟨ttl, _, h⟩ := Res.bind_eq_ok _ _ _ h
  obtain ⟨rdl, _, h⟩ := Res.bind_eq_ok _ _ _ h
  obtain ⟨rd, hrd, h⟩ := Res.bind_eq_ok _ _ _ h
  obtain ⟨_, hcap, _, _⟩ := slice_inv s rd _ _ hrd
  cases h
  simpa [Slice.backing, Slice.cap] using hcap

theorem decodeQuestions_cap (fuel : Nat) (s : Slice) :
    ∀ (n pos : Nat) (r : List DNSQuestion × Nat), decodeQuestions fuel s n pos = .ok r →
      pos ≤ s.cap → r.2 ≤ s.cap := by
  intro n
  induction n with
  | zero => intro pos r h hp; cases h; exact hp
  | succ n ih =>
    intro pos r h _
    rw [decodeQuestions] at h
    obtain ⟨q, hq, h⟩ := Res.bind_eq_ok _ _ _ h
    obtain ⟨rs, hrs, h⟩ := Res.bind_eq_ok _ _ _ h
    cases h
    exact ih _ rs hrs (decodeQuestion_cap fuel s pos q.1 q.2 hq)

theorem decodeRecords_cap (fuel : Nat) (s : Slice) :
    ∀ (n pos : Nat) (r : List DNSResourceRecord × Nat), decodeRecords fuel s n pos = .ok r →
      pos ≤ s.cap → r.2 ≤ s.cap := by
  intro n
  induction n with
  | zero => intro pos r h hp; cases h; exact hp
  | succ n ih =>
    intro pos r h _
    rw [decodeRecords] at h
    obtain ⟨q, hq, h⟩ := Res.bind_eq_ok _ _ _ h
    obtain ⟨rs, hrs, h⟩ := Res.bind_eq_ok _ _ _ h
    cases h
    exact ih _ rs hrs (decodeRecord_cap fuel s pos q.1 q.2 hq)

/-- The cursor of a decode that returns lies within the capacity of the buffer. -/
theorem decodeResponseCursor_cap (fuel : Nat) (s : Slice) (p : DNSPayload) (c : Nat)
    (h : decodeResponseCursor fuel s = .ok (p, c)) : c ≤ s.cap := by
  unfold decodeResponseCursor at h
  obtain ⟨payload, hh, h⟩ := Res.bind_eq_ok _ _ _ h
  obtain ⟨qs, hqs, h⟩ := Res.bind_eq_ok _ _ _ h
  obtain ⟨rs, hrs, h⟩ := Res.bind_eq_ok _ _ _ h
  cases h
  have h12 : 12 ≤ s.cap := by
    by_contra hc
    rw [(decodeHeader_cases s).2 (Or.inr (by omega))] at hh
    cases hh
  exact decodeRecords_cap fuel s _ _ _ hrs (decodeQuestions_cap fuel s _ _ _ hqs h12)

/-- The fields of a decoded record, read off the backing array: `decodeRecord` slices
`response` up to its capacity, so the bytes may lie beyond `len`. -/
theorem decodeRecord_fields_backing (fuel : Nat) (s : Slice) (pos : Nat)
    (rec : DNSResourceRecord) (next : Nat)
    (hbytes : ∀ b ∈ s.backing, b < 256)
    (h : decodeRecord fuel s pos = .ok (rec, next)) :
    ∃ e, decodeName fuel s [] pos = .ok e
      ∧ rec.Type_ = be16At s.backing e ∧ rec.Class = be16At s.backing (e + 2)
      ∧ rec.TTL = be32At s.backing (e + 4) ∧ rec.RDLength = be16At s.backing (e + 8)
      ∧ rec.RData = (s.backing.drop (e + 10)).take rec.RDLength
      ∧ rec.RData.length = rec.RDLength
      ∧ next = e + 10 + rec.RDLength := by
  unfold decodeRecord at h
  obtain ⟨e, he, h⟩ := Res.bind_eq_ok _ _ _ h
  obtain ⟨ty, hty, h⟩ := Res.bind_eq_ok _ _ _ h
  obtain ⟨cls, hcls, h⟩ := Res.bind_eq_ok _ _ _ h
  obtain ⟨ttl, httl, h⟩ := Res.bind_eq_ok _ _ _ h
  obtain ⟨rdl, hrdl, h⟩ := Res.bind_eq_ok _ _ _ h
  obtain ⟨rd, hrd, h⟩ := Res.bind_eq_ok _ _ _ h
  obtain ⟨_, _, hdata, hlen⟩ := slice_inv s rd _ _ hrd
  cases h
  refine ⟨e, he, read16_be s e ty hbytes hty, read16_be s (e + 2) cls hbytes hcls,
    read32_be s (e + 4) ttl hbytes httl, read16_be s (e + 8) rdl hbytes hrdl, ?_, ?_, rfl⟩
  · simpa using hdata
  · simpa using hlen

theorem getD_backing (s : Slice) (i : Nat) (h : i < s.len) :
    s.backing.getD i 0 = s.data.getD i 0 := by
  have h2 : i < s.data.length := h
  simp [List.getD, Slice.backing, List.getElem?_append_left h2]

theorem be16At_backing (s : Slice) (i : Nat) (h : i + 2 ≤ s.len) :
    be16At s.backing i = be16At s.data i := by
  unfold be16At
  rw [getD_backing s i (by omega), getD_backing s (i + 1) (by omega)]

theorem be32At_backing (s : Slice) (i : Nat) (h : i + 4 ≤ s.len) :
    be32At s.backing i = be32At s.data i := by
  unfold be32At
  rw [getD_backing s i (by omega), getD_backing s (i + 1) (by omega),
    getD_backing s (i + 2) (by omega), getD_backing s (i + 3) (by omega)]

theorem take_drop_backing (s : Slice) (lo n : Nat) (h : lo + n ≤ s.len) :
    (s.backing.drop lo).take n = (s.data.drop lo).take n := by
  have h2 : lo + n ≤ s.data.length := h
  rw [Slice.backing, List.drop_append_of_le_length (by omega),
    List.take_append_of_le_length (by rw [List.length_drop]; omega)]

theorem lengthPrefixed_eq_encodedLabels (parts : List (List Nat))
    (h : ∀ p ∈ parts, p.length < 256) : lengthPrefixed parts = encodedLabels parts := by
  induction parts with
  | nil => rfl
  | cons p ps ih =>
    have hp : p.length < 256 := h p (List.mem_cons_self _ _)
    have hps : ∀ q ∈ ps, q.length < 256 := fun q hq => h q (List.mem_cons_of_mem _ hq)
    simp only [lengthPrefixed, encodedLabels, Nat.mod_eq_of_lt hp, ih hps]

/-! ## Claims -/

/-- C1: for every 16-bit `txId` and boolean `recurse`, `makeDNSQueryHeader txId recurse`
is the twelve bytes `txId >> 8`, `txId & 0xFF`, `1` or `0` for `recurse`, `0, 0, 1`
and six zero bytes; for `0x1234` and `true` it is `12 34 01 00 00 01 00 00 00 00 00 00`. -/
theorem C1_makeDNSQueryHeader_bytes (txId : Nat) (recurse : Bool) (h : txId < 65536) :
    makeDNSQueryHeader txId recurse
        = [txId >>> 8, txId &&& 0xFF, if recurse then 1 else 0, 0, 0, 1, 0, 0, 0, 0, 0, 0]
      ∧ makeDNSQueryHeader 0x1234 true = [0x12, 0x34, 1, 0, 0, 1, 0, 0, 0, 0, 0, 0] := by
  refine ⟨?_, by decide⟩
  have e : txId >>> 8 = txId / 256 := Nat.shiftRight_eq_div_pow txId 8
  rw [makeDNSQueryHeader_eq, e,
    show txId &&& 0xFF = txId % 256 from Nat.and_pow_two_sub_one_eq_mod txId 8,
    Nat.mod_eq_of_lt (show txId / 256 < 256 by omega)]

theorem C1_makeDNSQueryHeader_bytes_witness :
    (0xBEEF < 65536) ∧
      (makeDNSQueryHeader 0xBEEF false
          = [0xBEEF >>> 8, 0xBEEF &&& 0xFF, if false then 1 else 0, 0, 0, 1, 0, 0, 0, 0, 0, 0]
        ∧ makeDNSQueryHeader 0x1234 true = [0x12, 0x34, 1, 0, 0, 1, 0, 0, 0, 0, 0, 0]) :=
  ⟨by decide, C1_makeDNSQueryHeader_bytes 0xBEEF false (by decide)⟩

/-- C2: for every hostname whose dot-separated parts are all non-empty and at most 63
bytes long and every 16-bit `qType` and `qClass`, `makeDNSQuestion` is the parts in
order, each as a length byte and its bytes, then one zero byte, then `qType` and
`qClass` as two big-endian bytes each; for "example.com", 1, 1 it is
`07 65 78 61 6D 70 6C 65 03 63 6F 6D 00 00 01 00 01`. -/
theorem C2_makeDNSQuestion_bytes (hostname : List Nat) (qType qClass : Nat)
    (hlab : ∀ p ∈ splitDot hostname, 0 < p.length ∧ p.length ≤ 63)
    (ht : qType < 65536) (hc : qClass < 65536) :
    makeDNSQuestion hostname qType qClass
        = encodedLabels (splitDot hostname) ++ [0]
          ++ [qType / 256, qType % 256] ++ [qClass / 256, qClass % 256]
      ∧ makeDNSQuestion exampleCom 1 1
        = [0x07, 0x65, 0x78, 0x61, 0x6D, 0x70, 0x6C, 0x65, 0x03, 0x63, 0x6F, 0x6D, 0x00,
           0x00, 0x01, 0x00, 0x01] := by
  refine ⟨?_, by decide⟩
  rw [makeDNSQuestion_eq hostname qType qClass (fun p hp => by have := hlab p hp; omega)]
  have h1 : qType / 256 % 256 = qType / 256 := Nat.mod_eq_of_lt (by omega)
  have h2 : qClass / 256 % 256 = qClass / 256 := Nat.mod_eq_of_lt (by omega)
  simp [h1, h2]

theorem C2_makeDNSQuestion_bytes_witness :
    (∀ p ∈ splitDot [119, 119, 119, 46, 97, 46, 105, 111], 0 < p.length ∧ p.length ≤ 63)
      ∧ (28 < 65536) ∧ (1 < 65536)
      ∧ (makeDNSQuestion [119, 119, 119, 46, 97, 46, 105, 111] 28 1
          = encodedLabels (splitDot [119, 119, 119, 46, 97, 46, 105, 111]) ++ [0]
            ++ [28 / 256, 28 % 256] ++ [1 / 256, 1 % 256]
        ∧ makeDNSQuestion exampleCom 1 1
          = [0x07, 0x65, 0x78, 0x61, 0x6D, 0x70, 0x6C, 0x65, 0x03, 0x63, 0x6F, 0x6D, 0x00,
             0x00, 0x01, 0x00, 0x01]) :=
  ⟨by decide, by decide, by decide,
    C2_makeDNSQuestion_bytes [119, 119, 119, 46, 97, 46, 105, 111] 28 1 (by decide)
      (by decide) (by decide)⟩

/-- C3: header round trip.  For every `txId` in [0, 65535], every `recurse` and whatever
capacity the header slice has, `decodeHeader` of `makeDNSQueryHeader txId recurse`
returns a payload with `TransactionId = txId` and `RecursionDesired() = recurse`, with
`IsResponse`, `AuthoritativeAnswer`, `Truncated`, `RecursionAvailable` false and
`Opcode`, `Z`, `ResponseCode` zero. -/
theorem C3_header_round_trip (txId : Nat) (recurse : Bool) (extra : List Nat)
    (h : txId < 65536) :
    ∃ p, decodeHeader ⟨makeDNSQueryHeader txId recurse, extra⟩ = .ok p
      ∧ p.TransactionId = txId ∧ p.RecursionDesired = recurse
      ∧ p.IsResponse = false ∧ p.AuthoritativeAnswer = false ∧ p.Truncated = false
      ∧ p.RecursionAvailable = false
      ∧ p.Opcode = 0 ∧ p.Z = 0 ∧ p.ResponseCode = 0 := by
  rw [makeDNSQueryHeader_eq, decodeHeader_twelve]
  refine ⟨_, rfl, ?_, ?_, IsResponse_false _, AuthoritativeAnswer_false _,
    Truncated_false _, RecursionAvailable_false _, ?_, ?_, ?_⟩
  · show (((txId / 256 % 256) % 65536) <<< 8) % 65536 ||| (txId % 256 % 65536) = txId
    rw [be16_eq _ _ (Nat.mod_lt _ (by decide)) (Nat.mod_lt _ (by decide))]
    omega
  · show ((if recurse = true then 1 else 0) &&& 1 == 1) = recurse
    cases recurse <;> decide
  · show ((if recurse = true then 1 else 0) >>> 3) &&& 0xF = 0
    cases recurse <;> decide
  · show (0 >>> 4) &&& 0x7 = 0
    decide
  · show 0 &&& 0xF = 0
    decide

theorem C3_header_round_trip_witness :
    (0x1234 < 65536) ∧
      ∃ p, decodeHeader ⟨makeDNSQueryHeader 0x1234 true, []⟩ = .ok p
        ∧ p.TransactionId = 0x1234 ∧ p.RecursionDesired = true
        ∧ p.IsResponse = false ∧ p.AuthoritativeAnswer = false ∧ p.Truncated = false
        ∧ p.RecursionAvailable = false
        ∧ p.Opcode = 0 ∧ p.Z = 0 ∧ p.ResponseCode = 0 :=
  ⟨by decide, C3_header_round_trip 0x1234 true [] (by decide)⟩

/-- C4 (as stated, refuted): for the hostname "a" the name that `decodeName` has
accumulated when it returns is "a." and not "a", whatever the iteration budget. -/
theorem C4_name_round_trip_counterexample :
    (∀ p ∈ splitDot [97], 0 < p.length ∧ p.length ≤ 63)
      ∧ (nameBytes (makeDNSQuestion [97] 1 1) []).len ≤ 255
      ∧ ¬ ∃ fuel st, decodeNameRun fuel (nameBytes (makeDNSQuestion [97] 1 1) []) [] 0 = .ok st
          ∧ st.name = [97] := by
  refine ⟨by decide, by decide, ?_⟩
  rintro ⟨fuel, st, hrun, hname⟩
  have h2 : decodeNameRun 2 (nameBytes (makeDNSQuestion [97] 1 1) []) [] 0
      = .ok ⟨[97, 46], 2, 0⟩ := by decide
  have := decodeNameRun_det _ _ _ _ _ _ _ hrun h2
  rw [this] at hname
  exact absurd hname (by decide)

/-- C4 (amended): name round trip, name part.  For every dotted hostname made of labels
of length 1 to 63 with total encoded length at most 255, `decodeName` at offset 0 over
the name bytes of `makeDNSQuestion` (its output without the last 4 bytes) leaves its
loop, with any budget above the number of labels, having accumulated the original
hostname followed by one `'.'`. -/
theorem C4_name_round_trip (hostname : List Nat) (qType qClass : Nat) (spare : List Nat)
    (fuel : Nat)
    (hlab : ∀ p ∈ splitDot hostname, 0 < p.length ∧ p.length ≤ 63)
    (_hlen : (nameBytes (makeDNSQuestion hostname qType qClass) spare).len ≤ 255)
    (hfuel : (splitDot hostname).length < fuel) :
    ∃ st, decodeNameRun fuel (nameBytes (makeDNSQuestion hostname qType qClass) spare) [] 0
          = .ok st
        ∧ st.name = hostname ++ [46] := by
  refine ⟨_, decodeNameRun_encoded hostname qType qClass spare [] fuel hlab hfuel, ?_⟩
  simp

theorem C4_name_round_trip_witness :
    (∀ p ∈ splitDot exampleCom, 0 < p.length ∧ p.length ≤ 63)
      ∧ (nameBytes (makeDNSQuestion exampleCom 1 1) []).len ≤ 255
      ∧ (splitDot exampleCom).length < 3
      ∧ ∃ st, decodeNameRun 3 (nameBytes (makeDNSQuestion exampleCom 1 1) []) [] 0 = .ok st
          ∧ st.name = exampleCom ++ [46] :=
  ⟨by decide, by decide, by decide,
    C4_name_round_trip exampleCom 1 1 [] 3 (by decide) (by decide) (by decide)⟩

/-- C5: name round trip, offset part.  For every dotted hostname made of labels of
length 1 to 63 with total encoded length at most 255, `decodeName` at offset 0 over the
name bytes of `makeDNSQuestion` returns, with any budget above the number of labels,
the length of the encoded name, which is `len(hostname) + 2`. -/
theorem C5_offset_round_trip (hostname : List Nat) (qType qClass : Nat)
    (spare name : List Nat) (fuel : Nat)
    (hlab : ∀ p ∈ splitDot hostname, 0 < p.length ∧ p.length ≤ 63)
    (_hlen : (nameBytes (makeDNSQuestion hostname qType qClass) spare).len ≤ 255)
    (hfuel : (splitDot hostname).length < fuel) :
    decodeName fuel (nameBytes (makeDNSQuestion hostname qType qClass) spare) name 0
        = .ok (nameBytes (makeDNSQuestion hostname qType qClass) spare).len
      ∧ (nameBytes (makeDNSQuestion hostname qType qClass) spare).len
        = hostname.length + 2 := by
  have hl : (nameBytes (makeDNSQuestion hostname qType qClass) spare).len
      = hostname.length + 2 := by
    unfold Slice.len
    rw [nameBytes_makeDNSQuestion hostname qType qClass spare
      (fun p hp => by have := hlab p hp; omega)]
    simp [length_encodedLabels_splitDot]
  refine ⟨?_, hl⟩
  unfold decodeName
  rw [decodeNameRun_encoded hostname qType qClass spare name fuel hlab hfuel, hl]
  simp [Res.bind]

theorem C5_offset_round_trip_witness :
    (∀ p ∈ splitDot exampleCom, 0 < p.length ∧ p.length ≤ 63)
      ∧ (nameBytes (makeDNSQuestion exampleCom 1 1) [7, 7]).len ≤ 255
      ∧ (splitDot exampleCom).length < 5
      ∧ decodeName 5 (nameBytes (makeDNSQuestion exampleCom 1 1) [7, 7]) [] 0
          = .ok (nameBytes (makeDNSQuestion exampleCom 1 1) [7, 7]).len
      ∧ (nameBytes (makeDNSQuestion exampleCom 1 1) [7, 7]).len = exampleCom.length + 2 :=
  ⟨by decide, by decide, by decide,
    C5_offset_round_trip exampleCom 1 1 [7, 7] [] 5 (by decide) (by decide) (by decide)⟩

/-- C6 (the code at the failing input): with all of bit 7, bit 2 and bit 1 set in
`lFlagBits` (`0x86`) and bit 7 set in `rFlagBits` (`0x80`), `IsResponse`,
`AuthoritativeAnswer`, `Truncated` and `RecursionAvailable` all return false. -/
theorem C6_flag_accessors_at_set_bits :
    Nat.testBit 0x86 7 = true ∧ (flagsOnly 0x86 0x80).IsResponse = false
      ∧ Nat.testBit 0x86 2 = true ∧ (flagsOnly 0x86 0x80).AuthoritativeAnswer = false
      ∧ Nat.testBit 0x86 1 = true ∧ (flagsOnly 0x86 0x80).Truncated = false
      ∧ Nat.testBit 0x80 7 = true ∧ (flagsOnly 0x86 0x80).RecursionAvailable = false := by
  decide

/-- C7: for every pair of flag bytes, `Opcode()` is the 4-bit value in bits 6..3 of
`lFlagBits`, `Z()` the 3-bit value in bits 6..4 of `rFlagBits` and `ResponseCode()` the
4-bit value in bits 3..0 of `rFlagBits`: bit `i` of each result is the corresponding
bit of the flag byte inside the field and zero outside, so `Opcode` and `ResponseCode`
are at most 15 and `Z` at most 7. -/
theorem C7_enum_accessors (h : DNSPayload) :
    (∀ i, h.Opcode.testBit i = (decide (i < 4) && h.lFlagBits.testBit (3 + i)))
      ∧ (∀ i, h.Z.testBit i = (decide (i < 3) && h.rFlagBits.testBit (4 + i)))
      ∧ (∀ i, h.ResponseCode.testBit i = (decide (i < 4) && h.rFlagBits.testBit i))
      ∧ h.Opcode = h.lFlagBits / 8 % 16 ∧ h.Z = h.rFlagBits / 16 % 8
      ∧ h.ResponseCode = h.rFlagBits % 16
      ∧ h.Opcode ≤ 15 ∧ h.Z ≤ 7 ∧ h.ResponseCode ≤ 15 := by
  have e4 : ∀ x : Nat, x &&& 0xF = x % 16 := fun x => Nat.and_pow_two_sub_one_eq_mod x 4
  have e3 : ∀ x : Nat, x &&& 0x7 = x % 8 := fun x => Nat.and_pow_two_sub_one_eq_mod x 3
  have o : h.Opcode = h.lFlagBits / 8 % 16 := by
    simp only [DNSPayload.Opcode, e4, Nat.shiftRight_eq_div_pow]
  have z : h.Z = h.rFlagBits / 16 % 8 := by
    simp only [DNSPayload.Z, e3, Nat.shiftRight_eq_div_pow]
  have r : h.ResponseCode = h.rFlagBits % 16 := by
    simp only [DNSPayload.ResponseCode, e4]
  refine ⟨?_, ?_, ?_, o, z, r, by omega, by omega, by omega⟩
  · intro i
    rw [DNSPayload.Opcode, e4, show (16 : Nat) = 2 ^ 4 from rfl, Nat.testBit_mod_two_pow,
      Nat.testBit_shiftRight]
  · intro i
    rw [DNSPayload.Z, e3, show (8 : Nat) = 2 ^ 3 from rfl, Nat.testBit_mod_two_pow,
      Nat.testBit_shiftRight]
  · intro i
    rw [DNSPayload.ResponseCode, e4, show (16 : Nat) = 2 ^ 4 from rfl,
      Nat.testBit_mod_two_pow]

/-- C8: section-count invariant.  For every buffer of bytes on which `decodeResponse`
returns a message, `len(Questions) = QDCount` and `len(Records) = ANCount + NSCount +
ARCount`, the four counts being the big-endian 16-bit values at offsets 4, 6, 8 and 10
(of the backing array, which below `len` is the buffer itself). -/
theorem C8_section_counts (fuel : Nat) (response : Slice) (p : DNSPayload)
    (hbytes : ∀ b ∈ response.backing, b < 256)
    (h : decodeResponse fuel response = .ok p) :
    p.Questions.length = p.QDCount
      ∧ p.Records.length = p.ANCount + p.NSCount + p.ARCount
      ∧ p.QDCount = be16At response.backing 4 ∧ p.ANCount = be16At response.backing 6
      ∧ p.NSCount = be16At response.backing 8 ∧ p.ARCount = be16At response.backing 10 := by
  unfold decodeResponse at h
  obtain ⟨payload, hh, h⟩ := Res.bind_eq_ok _ _ _ h
  obtain ⟨qs, hqs, h⟩ := Res.bind_eq_ok _ _ _ h
  obtain ⟨rs, hrs, h⟩ := Res.bind_eq_ok _ _ _ h
  cases h
  exact ⟨decodeQuestions_length fuel response _ _ _ hqs,
    decodeRecords_length fuel response _ _ _ hrs,
    decodeHeader_counts response payload hbytes hh⟩

theorem C8_section_counts_witness :
    (∀ b ∈ sampleResponse.backing, b < 256)
      ∧ decodeResponse 3 sampleResponse = .ok samplePayload
      ∧ samplePayload.Questions.length = 1 ∧ samplePayload.Records.length = 2
      ∧ (samplePayload.Questions.length = samplePayload.QDCount
        ∧ samplePayload.Records.length
            = samplePayload.ANCount + samplePayload.NSCount + samplePayload.ARCount
        ∧ samplePayload.QDCount = be16At sampleResponse.backing 4
        ∧ samplePayload.ANCount = be16At sampleResponse.backing 6
        ∧ samplePayload.NSCount = be16At sampleResponse.backing 8
        ∧ samplePayload.ARCount = be16At sampleResponse.backing 10) :=
  ⟨by decide, by decide, rfl, rfl,
    C8_section_counts 3 sampleResponse samplePayload (by decide) (by decide)⟩

/-- C9 (as stated, refuted): on the two-byte buffer `C0 00`, decoded at offset 0,
`decodeName` has neither returned nor panicked after any number of iterations. -/
theorem C9_cycle_counterexample :
    ¬ ∃ fuel, decodeName fuel ⟨[0xC0, 0x00], []⟩ [] 0 ≠ .spin := by
  rintro ⟨fuel, h⟩
  exact h (decodeName_cycle ⟨[0xC0, 0x00], []⟩ 0 0 (by decide) (by decide) fuel [])

/-- C9 (amended): for every buffer in which the compression pointer at `p` points to `q`
and the two bytes at `q` are a compression pointer back to `p` (with `q = p`: a pointer
to itself), `decodeName` at `p`, and hence `decodeQuestion` and `decodeRecord` at `p`,
never terminates: whatever the number of iterations allowed, the loop is still running,
with no value returned and no failure reported. -/
theorem C9_cycle_never_terminates (s : Slice) (p q : Nat) (name : List Nat)
    (hp : isPointerTo s p q = true) (hq : isPointerTo s q p = true) :
    ∀ fuel, decodeName fuel s name p = .spin
      ∧ decodeQuestion fuel s p = .spin ∧ decodeRecord fuel s p = .spin := by
  intro fuel
  refine ⟨decodeName_cycle s p q hp hq fuel name, ?_, ?_⟩
  · unfold decodeQuestion
    simp only [decodeName_cycle s p q hp hq fuel [], Res.spin_bind]
  · unfold decodeRecord
    simp only [decodeName_cycle s p q hp hq fuel [], Res.spin_bind]

theorem C9_cycle_never_terminates_witness :
    isPointerTo ⟨[1, 97, 0xC0, 0x04, 0xC0, 0x02], []⟩ 2 4 = true
      ∧ isPointerTo ⟨[1, 97, 0xC0, 0x04, 0xC0, 0x02], []⟩ 4 2 = true
      ∧ ∀ fuel, decodeName fuel ⟨[1, 97, 0xC0, 0x04, 0xC0, 0x02], []⟩ [] 2 = .spin
          ∧ decodeQuestion fuel ⟨[1, 97, 0xC0, 0x04, 0xC0, 0x02], []⟩ 2 = .spin
          ∧ decodeRecord fuel ⟨[1, 97, 0xC0, 0x04, 0xC0, 0x02], []⟩ 2 = .spin :=
  ⟨by decide, by decide,
    C9_cycle_never_terminates ⟨[1, 97, 0xC0, 0x04, 0xC0, 0x02], []⟩ 2 4 [] (by decide)
      (by decide)⟩

/-- C10: compression equivalence.  For every buffer, every offset `o1` at which
`decodeName` succeeds and every offset `p` whose two bytes are a compression pointer
with target `o1`, `decodeName` at `p` (one more iteration allowed) accumulates exactly
the name bytes accumulated at `o1` and returns `p + 2`. -/
theorem C10_compression_equivalence (s : Slice) (o1 p fuel : Nat) (name : List Nat)
    (st1 : NameState)
    (h1 : decodeNameRun fuel s name o1 = .ok st1)
    (hp : isPointerTo s p o1 = true) :
    ∃ st, decodeNameRun (fuel + 1) s name p = .ok st ∧ st.name = st1.name
      ∧ decodeName (fuel + 1) s name p = .ok (p + 2) := by
  obtain ⟨a0, hpi, hpne, hptop, raw, hp16, hraw, hptgt⟩ := isPointerTo_spec s p o1 hp
  unfold decodeNameRun at h1
  obtain ⟨b, hb, h1⟩ := Res.bind_eq_ok _ _ _ h1
  obtain ⟨r2, hr2, hname, _, hptr⟩ :=
    decodeNameLoop_pointer_indep s fuel b name o1 0 raw st1 hb h1 hraw
  have hrun : decodeNameRun (fuel + 1) s name p = .ok r2 := by
    unfold decodeNameRun
    rw [hpi, Res.ok_bind, decodeNameLoop]
    simp only [if_neg hpne, if_pos hptop, hp16, Res.ok_bind, hptgt, hb]
    exact hr2
  refine ⟨r2, hrun, hname, ?_⟩
  unfold decodeName
  rw [hrun, Res.ok_bind, if_neg hptr]

theorem C10_compression_equivalence_witness :
    decodeNameRun 2 sampleResponse [] 12 = .ok ⟨[97, 46], 14, 0⟩
      ∧ isPointerTo sampleResponse 19 12 = true
      ∧ ∃ st, decodeNameRun (2 + 1) sampleResponse [] 19 = .ok st
          ∧ st.name = (⟨[97, 46], 14, 0⟩ : NameState).name
          ∧ decodeName (2 + 1) sampleResponse [] 19 = .ok (19 + 2) :=
  ⟨by decide, by decide,
    C10_compression_equivalence sampleResponse 12 19 2 [] ⟨[97, 46], 14, 0⟩ (by decide)
      (by decide)⟩

/-- C11: for every buffer and start offset `pos` at which `decodeName` returns `r`.  If the
bytes at `pos` are a run of labels followed by a pointer byte (so that a compression
pointer is followed before the terminating zero is reached), then `r = pos + 2`.  If
they are a run of labels followed by the zero byte (no pointer is followed), then `r` is
`pos` plus the bytes of the labels plus 1, the index of the terminating zero plus 1.
One of the two is always the case. -/
theorem C11_decodeName_offset (fuel : Nat) (s : Slice) (name : List Nat) (pos r : Nat)
    (h : decodeName fuel s name pos = .ok r) :
    (∀ labels c post, (∀ p ∈ labels, p.length ≠ 0 ∧ p.length &&& 0xC0 ≠ 0xC0) →
        s.data.drop pos = encodedLabels labels ++ c :: post → c &&& 0xC0 = 0xC0 →
        r = pos + 2)
      ∧ (∀ labels post, (∀ p ∈ labels, p.length ≠ 0 ∧ p.length &&& 0xC0 ≠ 0xC0) →
        s.data.drop pos = encodedLabels labels ++ 0 :: post →
        r = pos + (encodedLabels labels).length + 1
          ∧ s.data[pos + (encodedLabels labels).length]? = some 0)
      ∧ ((∃ labels c post, (∀ p ∈ labels, p.length ≠ 0 ∧ p.length &&& 0xC0 ≠ 0xC0)
            ∧ s.data.drop pos = encodedLabels labels ++ c :: post ∧ c &&& 0xC0 = 0xC0)
          ∨ (∃ labels post, (∀ p ∈ labels, p.length ≠ 0 ∧ p.length &&& 0xC0 ≠ 0xC0)
            ∧ s.data.drop pos = encodedLabels labels ++ 0 :: post)) := by
  unfold decodeName at h
  obtain ⟨st, hrun, hr⟩ := Res.bind_eq_ok _ _ _ h
  refine ⟨?_, ?_, ?_⟩
  · intro labels c post hl hd hc
    obtain ⟨hi, hloop⟩ := decodeNameRun_after_labels s fuel pos name st labels c post hl hd hrun
    have hne := decodeNameLoop_pointer_first s fuel c _ st hi hc hloop
    rw [if_neg hne] at hr
    cases hr
    rfl
  · intro labels post hl hd
    obtain ⟨hi, hloop⟩ := decodeNameRun_after_labels s fuel pos name st labels 0 post hl hd hrun
    have hz : s.data[pos + (encodedLabels labels).length]? = some 0 := by
      unfold Slice.index at hi
      split at hi
      · next b e => cases hi; exact e
      · cases hi
    refine ⟨?_, hz⟩
    cases fuel with
    | zero => cases hloop
    | succ f =>
      rw [decodeNameLoop] at hloop
      simp only [if_true] at hloop
      cases hloop
      simp only [if_true] at hr
      cases hr
      rfl
  · unfold decodeNameRun at hrun
    obtain ⟨b, hb, hloop⟩ := Res.bind_eq_ok _ _ _ hrun
    rcases decodeNameLoop_shape s fuel b name pos st hb hloop with
      ⟨labels, post, hl, hd, _⟩ | ⟨labels, c, post, hl, hd, hc, _⟩
    · exact Or.inr ⟨labels, post, hl, hd⟩
    · exact Or.inl ⟨labels, c, post, hl, hd, hc⟩

theorem C11_decodeName_offset_witness :
    decodeName 4 wwwResponse [] 19 = .ok 21 ∧ 21 = 19 + 2
      ∧ decodeName 3 wwwResponse [] 12 = .ok 15
      ∧ (15 = 12 + (encodedLabels [[97]]).length + 1
          ∧ wwwResponse.data[12 + (encodedLabels [[97]]).length]? = some 0) :=
  ⟨by decide,
    (C11_decodeName_offset 4 wwwResponse [] 19 21 (by decide)).1 [[119, 119, 119]] 0xC0
      (wwwResponse.data.drop 24) (by decide) (by decide) (by decide),
    by decide,
    (C11_decodeName_offset 3 wwwResponse [] 12 15 (by decide)).2.1 [[97]]
      (wwwResponse.data.drop 15) (by decide) (by decide)⟩

/-- C12 (the code at the failing input): the name at offset 19 of `wwwResponse` is
`03 77 77 77 C0 0C`, six bytes, so the offset after it is 25; `decodeName` returns 21,
and `decodeRecord` reads TYPE from the bytes at 21 ("ww", `0x7777`) instead of the
bytes at 25 (`00 01`). -/
theorem C12_labels_then_pointer_offset :
    wwwResponse.data.drop 19
        = encodedLabels [[119, 119, 119]] ++ [0xC0, 0x0C] ++ wwwResponse.data.drop 25
      ∧ isPointerTo wwwResponse 23 12 = true
      ∧ decodeName 4 wwwResponse [] 19 = .ok 21
      ∧ 21 ≠ 19 + (encodedLabels [[119, 119, 119]]).length + 2
      ∧ be16At wwwResponse.data 25 = 1
      ∧ ∃ rec next, decodeRecord 4 wwwResponse 19 = .ok (rec, next)
          ∧ rec.Type_ = 0x7777 ∧ rec.Type_ = be16At wwwResponse.data 21 := by
  refine ⟨by decide, by decide, by decide, by decide, by decide, ?_⟩
  exact ⟨{ Type_ := 0x7777, Class := 0xC00C, TTL := 0x00010001, RDLength := 0,
            Name := [], RData := [] }, 31, by decide, by decide, by decide⟩

/-- C13 (as stated, refuted): `decodeResponse` succeeds on `sampleResponse` and consumes
its last byte (the cursor ends at its length, 51); on `sampleResponse[:50]`, the same
buffer with its last byte removed, it returns a message, with both records. -/
theorem C13_truncation_counterexample :
    decodeResponseCursor 3 sampleResponse = .ok (samplePayload, sampleResponse.len)
      ∧ sampleCut.data = sampleResponse.data.take (sampleResponse.len - 1)
      ∧ sampleCut.len = sampleResponse.len - 1
      ∧ decodeResponse 3 sampleCut = .ok { samplePayload with Size := 50 } := by
  decide

/-- C13 (amended): for every buffer on which `decodeResponse` succeeds with its cursor at
the buffer length, `decodeResponse` on a buffer that holds a proper prefix of it and has
no spare capacity panics (with the same iteration budget), and returns a message with
no budget. -/
theorem C13_truncation_panics (fuel : Nat) (s : Slice) (p : DNSPayload) (pre suf : List Nat)
    (hok : decodeResponseCursor fuel s = .ok (p, s.len))
    (hpre : s.data = pre ++ suf) (hsuf : suf ≠ []) :
    decodeResponse fuel s = .ok p
      ∧ decodeResponse fuel ⟨pre, []⟩ = .panic
      ∧ ∀ fuel2 q, decodeResponse fuel2 ⟨pre, []⟩ ≠ .ok q := by
  have hb : (⟨pre, []⟩ : Slice).Begins s := by
    refine ⟨⟨suf, hpre⟩, ⟨suf ++ s.extra, ?_⟩⟩
    simp [Slice.backing, hpre]
  have hlen : (⟨pre, []⟩ : Slice).cap < s.len := by
    have : 0 < suf.length := List.length_pos.mpr hsuf
    simp only [Slice.cap, Slice.len, hpre, List.length_append, List.length_nil]
    omega
  have key : ∀ f pt c, decodeResponseCursor f ⟨pre, []⟩ = .ok (pt, c) → False := by
    intro f pt c ht
    obtain ⟨ps, hs⟩ := decodeResponseCursor_begins hb f pt c ht
    have e := (decodeResponseCursor_stable s).det f fuel _ _ hs hok
    have hc := decodeResponseCursor_cap f _ pt c ht
    have : c = s.len := congrArg Prod.snd e
    omega
  refine ⟨by rw [decodeResponse_eq_cursor, hok]; rfl, ?_, ?_⟩
  · rw [decodeResponse_eq_cursor]
    cases ht : decodeResponseCursor fuel ⟨pre, []⟩ with
    | panic => rfl
    | spin =>
      rw [decodeResponseCursor_begins_spin hb fuel ht] at hok
      cases hok
    | ok r => exact absurd ht (fun h => key fuel r.1 r.2 h)
  · intro fuel2 q hq
    rw [decodeResponse_eq_cursor] at hq
    obtain ⟨r, hr, _⟩ := Res.bind_eq_ok _ _ _ hq
    exact key fuel2 r.1 r.2 hr

theorem C13_truncation_panics_witness :
    decodeResponseCursor 3 sampleResponse = .ok (samplePayload, sampleResponse.len)
      ∧ sampleResponse.data = sampleResponse.data.take 50 ++ [2]
      ∧ ([2] : List Nat) ≠ []
      ∧ decodeResponse 3 sampleResponse = .ok samplePayload
      ∧ decodeResponse 3 ⟨sampleResponse.data.take 50, []⟩ = .panic
      ∧ ∀ fuel2 q, decodeResponse fuel2 ⟨sampleResponse.data.take 50, []⟩ ≠ .ok q :=
  ⟨by decide, by decide, by decide,
    C13_truncation_panics 3 sampleResponse samplePayload (sampleResponse.data.take 50) [2]
      (by decide) (by decide) (by decide)⟩

/-- C14 (as stated, refuted): in `shortDatagram` (49 bytes) the record decoded at offset
35 has `e = 37` and `RDLength = 4`, and its `RData` is `[10, 0, 0, 0]`, four bytes,
while the buffer holds only the two bytes `[10, 0]` from offset `e + 10 = 47`: `RData`
is not a run of bytes of the buffer, and the next offset 51 lies beyond it. -/
theorem C14_decodeRecord_fields_counterexample :
    shortDatagram.data.length = 49
      ∧ decodeName 3 shortDatagram [] 35 = .ok 37
      ∧ decodeRecord 3 shortDatagram 35
          = .ok ({ Type_ := 1, Class := 1, TTL := 300, RDLength := 4, Name := [],
                   RData := [10, 0, 0, 0] }, 51)
      ∧ (shortDatagram.data.drop (37 + 10)).take 4 = [10, 0]
      ∧ ([10, 0, 0, 0] : List Nat) ≠ (shortDatagram.data.drop (37 + 10)).take 4
      ∧ shortDatagram.data.length < 37 + 10 + 4 := by
  decide

/-- C14 (amended): for every buffer of bytes and offset at which `decodeRecord` succeeds
with the record ending within the buffer (the next offset it returns is at most
`len`), with `e` the offset `decodeName` returns for the record's name: `Type` is the
big-endian 16-bit value at `e` of the buffer, `Class` the one at `e + 2`, `TTL` the
big-endian 32-bit value at `e + 4`, `RDLength` the 16-bit value at `e + 8`, `RData` is
exactly the `RDLength` bytes `buffer[e+10 .. e+10+RDLength)`, and the next offset is
`e + 10 + RDLength`. -/
theorem C14_decodeRecord_fields (fuel : Nat) (s : Slice) (pos : Nat)
    (rec : DNSResourceRecord) (next : Nat)
    (hbytes : ∀ b ∈ s.backing, b < 256)
    (h : decodeRecord fuel s pos = .ok (rec, next))
    (hin : next ≤ s.len) :
    ∃ e, decodeName fuel s [] pos = .ok e
      ∧ rec.Type_ = be16At s.data e ∧ rec.Class = be16At s.data (e + 2)
      ∧ rec.TTL = be32At s.data (e + 4) ∧ rec.RDLength = be16At s.data (e + 8)
      ∧ rec.RData = (s.data.drop (e + 10)).take rec.RDLength
      ∧ rec.RData.length = rec.RDLength
      ∧ next = e + 10 + rec.RDLength := by
  obtain ⟨e, he, hty, hcl, httl, hrdl, hrd, hlen, hnext⟩ :=
    decodeRecord_fields_backing fuel s pos rec next hbytes h
  have hle : e + 10 + rec.RDLength ≤ s.len := by omega
  refine ⟨e, he, ?_, ?_, ?_, ?_, ?_, hlen, hnext⟩
  · rw [hty, be16At_backing s e (by omega)]
  · rw [hcl, be16At_backing s (e + 2) (by omega)]
  · rw [httl, be32At_backing s (e + 4) (by omega)]
  · rw [← be16At_backing s (e + 8) (by omega)]; exact hrdl
  · rw [← take_drop_backing s (e + 10) rec.RDLength hle]; exact hrd

theorem C14_decodeRecord_fields_witness :
    (∀ b ∈ sampleResponse.backing, b < 256)
      ∧ decodeRecord 3 sampleResponse 35
          = .ok ({ Type_ := 1, Class := 1, TTL := 300, RDLength := 4, Name := [],
                   RData := [10, 0, 0, 2] }, 51)
      ∧ 51 ≤ sampleResponse.len
      ∧ ∃ e, decodeName 3 sampleResponse [] 35 = .ok e
        ∧ 1 = be16At sampleResponse.data e ∧ 1 = be16At sampleResponse.data (e + 2)
        ∧ 300 = be32At sampleResponse.data (e + 4)
        ∧ 4 = be16At sampleResponse.data (e + 8)
        ∧ [10, 0, 0, 2] = (sampleResponse.data.drop (e + 10)).take 4
        ∧ [10, 0, 0, 2].length = 4
        ∧ 51 = e + 10 + 4 :=
  ⟨by decide, by decide, by decide,
    C14_decodeRecord_fields 3 sampleResponse 35
      { Type_ := 1, Class := 1, TTL := 300, RDLength := 4, Name := [], RData := [10, 0, 0, 2] }
      51 (by decide) (by decide) (by decide)⟩

/-- C15 (as stated, refuted): in `shortDatagram` (49 bytes received) the record at offset
35 has its name and its ten fixed bytes inside the buffer (`e = 37`, `e + 10 = 47`),
and `e + 10 + RDLENGTH = 51` exceeds the buffer length; `decodeRecord` returns a record
whose `RData` ends with two bytes from beyond the 49 bytes received. -/
theorem C15_rdata_counterexample :
    shortDatagram.len = 49
      ∧ decodeName 3 shortDatagram [] 35 = .ok 37
      ∧ be16At shortDatagram.data (37 + 8) = 4
      ∧ shortDatagram.len < 37 + 10 + 4
      ∧ decodeRecord 3 shortDatagram 35
          = .ok ({ Type_ := 1, Class := 1, TTL := 300, RDLength := 4, Name := [],
                   RData := [10, 0, 0, 0] }, 51) := by
  decide

/-- C15 (amended): for every buffer and offset where the record's name decodes, to the
offset `e`, and its ten fixed bytes lie within the capacity of the buffer slice
(`RDLENGTH` being the 16-bit value read at `e + 8`): if `e + 10 + RDLENGTH` exceeds the
capacity, `decodeRecord` panics on the slice expression for `RData` and returns no
record. -/
theorem C15_rdata_past_capacity (fuel : Nat) (s : Slice) (pos e rdLength : Nat)
    (hname : decodeName fuel s [] pos = .ok e)
    (hfixed : e + 10 ≤ s.cap)
    (hlen : (s.slice (e + 8) (e + 10)).bind bytesToUint16 = .ok rdLength)
    (hover : s.cap < e + 10 + rdLength) :
    decodeRecord fuel s pos = .panic := by
  obtain ⟨ty, hty⟩ := read16_total s e (by omega)
  obtain ⟨cls, hcls⟩ := read16_total s (e + 2) (by omega)
  obtain ⟨ttl, httl⟩ := read32_total s (e + 4) (by omega)
  have hno : ¬ (e + 10 ≤ e + 10 + rdLength ∧ e + 10 + rdLength ≤ s.cap) := by omega
  unfold decodeRecord
  simp only [hname, Res.ok_bind, hty, hcls, httl, hlen]
  rw [Slice.slice, if_neg hno, Res.panic_bind]

theorem C15_rdata_past_capacity_witness :
    decodeName 3 ⟨sampleResponse.data.take 49, []⟩ [] 35 = .ok 37
      ∧ 37 + 10 ≤ (⟨sampleResponse.data.take 49, []⟩ : Slice).cap
      ∧ ((⟨sampleResponse.data.take 49, []⟩ : Slice).slice (37 + 8) (37 + 10)).bind
          bytesToUint16 = .ok 4
      ∧ (⟨sampleResponse.data.take 49, []⟩ : Slice).cap < 37 + 10 + 4
      ∧ decodeRecord 3 ⟨sampleResponse.data.take 49, []⟩ 35 = .panic :=
  ⟨by decide, by decide, by decide, by decide,
    C15_rdata_past_capacity 3 ⟨sampleResponse.data.take 49, []⟩ 35 37 4 (by decide)
      (by decide) (by decide) (by decide)⟩

/-- C16 (the code at the failing input): in `sampleResponse` the name at offset 12 has
the label "a", and `decodeName` accumulates "a." there and at offset 19 (a pointer to
12); the `Name` of the question decoded at 12 and of the record decoded at 19 is
empty.  It is empty after every successful `decodeQuestion` and `decodeRecord`: what
`decodeName` appends goes to its own copy of the slice header. -/
theorem C16_name_field_empty :
    (∃ st, decodeNameRun 3 sampleResponse [] 12 = .ok st ∧ st.name = [97, 46])
      ∧ (∃ q next, decodeQuestion 3 sampleResponse 12 = .ok (q, next) ∧ q.Name = [])
      ∧ (∃ st, decodeNameRun 3 sampleResponse [] 19 = .ok st ∧ st.name = [97, 46])
      ∧ (∃ r next, decodeRecord 3 sampleResponse 19 = .ok (r, next) ∧ r.Name = [])
      ∧ (∀ fuel s pos q next, decodeQuestion fuel s pos = .ok (q, next) → q.Name = [])
      ∧ (∀ fuel s pos r next, decodeRecord fuel s pos = .ok (r, next) → r.Name = []) := by
  refine ⟨⟨⟨[97, 46], 14, 0⟩, by decide, rfl⟩,
    ⟨{ Type_ := 1, Class := 1, Name := [] }, 19, by decide, rfl⟩,
    ⟨⟨[97, 46], 14, 0xC00C⟩, by decide, rfl⟩,
    ⟨{ Type_ := 1, Class := 1, TTL := 60, RDLength := 4, Name := [], RData := [10, 0, 0, 1] },
      35, by decide, rfl⟩, ?_, ?_⟩
  · intro fuel s pos q next h
    unfold decodeQuestion at h
    obtain ⟨e, _, h⟩ := Res.bind_eq_ok _ _ _ h
    obtain ⟨ty, _, h⟩ := Res.bind_eq_ok _ _ _ h
    obtain ⟨cls, _, h⟩ := Res.bind_eq_ok _ _ _ h
    cases h
    rfl
  · intro fuel s pos r next h
    unfold decodeRecord at h
    obtain ⟨e, _, h⟩ := Res.bind_eq_ok _ _ _ h
    obtain ⟨ty, _, h⟩ := Res.bind_eq_ok _ _ _ h
    obtain ⟨cls, _, h⟩ := Res.bind_eq_ok _ _ _ h
    obtain ⟨ttl, _, h⟩ := Res.bind_eq_ok _ _ _ h
    obtain ⟨rdl, _, h⟩ := Res.bind_eq_ok _ _ _ h
    obtain ⟨rd, _, h⟩ := Res.bind_eq_ok _ _ _ h
    cases h
    rfl

/-- C17 (as stated, refuted): on the empty buffer, and on an 11-byte buffer without spare
capacity, `decodeHeader` panics, and so does `decodeResponse` whatever the iteration
budget. -/
theorem C17_short_buffer_counterexample :
    decodeHeader ⟨[], []⟩ = .panic
      ∧ (¬ ∃ fuel, decodeResponse fuel ⟨[], []⟩ ≠ .panic)
      ∧ decodeHeader ⟨[0x12, 0x34, 1, 0, 0, 1, 0, 0, 0, 0, 0], []⟩ = .panic
      ∧ (¬ ∃ fuel, decodeResponse fuel ⟨[0x12, 0x34, 1, 0, 0, 1, 0, 0, 0, 0, 0], []⟩
          ≠ .panic) := by
  refine ⟨by decide, ?_, by decide, ?_⟩
  · rintro ⟨fuel, h⟩
    exact h rfl
  · rintro ⟨fuel, h⟩
    exact h rfl

/-- C17 (amended): for every input buffer, `decodeHeader` either returns a message or
panics; it has no error result.  It returns a message when the buffer has at least 4
bytes and a capacity of at least 12; when the buffer has fewer than 4 bytes or a
capacity below 12 (the empty buffer, and every buffer shorter than 12 bytes without
spare capacity) it panics on an index or slice expression, and `decodeResponse` panics
with it. -/
theorem C17_short_buffer_panics (s : Slice) :
    (4 ≤ s.len ∧ 12 ≤ s.cap → ∃ p, decodeHeader s = .ok p)
      ∧ (s.len < 4 ∨ s.cap < 12 →
          decodeHeader s = .panic ∧ ∀ fuel, decodeResponse fuel s = .panic) := by
  refine ⟨(decodeHeader_cases s).1, fun h => ?_⟩
  have hp := (decodeHeader_cases s).2 h
  refine ⟨hp, fun fuel => ?_⟩
  unfold decodeResponse
  rw [hp, Res.panic_bind]

/-- C18 (as stated, refuted): `makeDNSQuestion` emits question bytes for the empty
hostname, and for a hostname that is one label of 64 bytes it emits the length byte 64;
no error is reported. -/
theorem C18_no_validation_counterexample :
    makeDNSQuestion [] 1 1 = [0, 0, 0, 1, 0, 1]
      ∧ (splitDot (List.replicate 64 97)).map List.length = [64]
      ∧ makeDNSQuestion (List.replicate 64 97) 1 1
          = 64 :: (List.replicate 64 97 ++ [0, 0, 1, 0, 1])
      ∧ ¬ (1 ≤ (makeDNSQuestion (List.replicate 64 97) 1 1).headD 0
            ∧ (makeDNSQuestion (List.replicate 64 97) 1 1).headD 0 ≤ 63) := by
  decide

/-- C18 (amended): `makeDNSQuestion` has no error result and checks nothing.  For every
hostname, the empty one, one with a label longer than 63 bytes and one whose encoded
name is longer than 255 bytes included, it returns `len(hostname) + 6` bytes: for every
dot-separated part the byte `len(part) mod 256` and the part, then a zero byte, then
the type and class bytes.  When every part has length 1 to 63, every length byte it
emits is the length of its part, hence in [1,63]. -/
theorem C18_makeDNSQuestion_total (hostname : List Nat) (qType qClass : Nat) :
    makeDNSQuestion hostname qType qClass
        = lengthPrefixed (splitDot hostname) ++ [0] ++ typeClassBytes qType qClass
      ∧ (makeDNSQuestion hostname qType qClass).length = hostname.length + 6
      ∧ ((∀ p ∈ splitDot hostname, 1 ≤ p.length ∧ p.length ≤ 63) →
          lengthPrefixed (splitDot hostname) = encodedLabels (splitDot hostname)
            ∧ ∀ p ∈ splitDot hostname, 1 ≤ p.length % 256 ∧ p.length % 256 ≤ 63) := by
  refine ⟨makeDNSQuestion_eq_lengthPrefixed hostname qType qClass, ?_, ?_⟩
  · rw [makeDNSQuestion_eq_lengthPrefixed]
    simp [length_lengthPrefixed_splitDot, typeClassBytes]
  · intro h
    refine ⟨lengthPrefixed_eq_encodedLabels _ (fun p hp => by have := h p hp; omega), ?_⟩
    intro p hp
    have := h p hp
    rw [Nat.mod_eq_of_lt (by omega)]
    exact this

theorem C18_makeDNSQuestion_total_witness :
    (∀ p ∈ splitDot exampleCom, 1 ≤ p.length ∧ p.length ≤ 63)
      ∧ (makeDNSQuestion exampleCom 1 1).length = exampleCom.length + 6
      ∧ lengthPrefixed (splitDot exampleCom) = encodedLabels (splitDot exampleCom)
      ∧ ∀ p ∈ splitDot exampleCom, 1 ≤ p.length % 256 ∧ p.length % 256 ≤ 63 :=
  ⟨by decide, (C18_makeDNSQuestion_total exampleCom 1 1).2.1,
    (C18_makeDNSQuestion_total exampleCom 1 1).2.2 (by decide)⟩

/-- C19 (as stated, refuted): "example.com." and "example.com" do not give the same
question; the trailing dot adds a zero byte, and the encoded name of "example.com."
ends with two zero bytes. -/
theorem C19_empty_segment_counterexample :
    makeDNSQuestion (exampleCom ++ [46]) 1 1 ≠ makeDNSQuestion exampleCom 1 1
      ∧ makeDNSQuestion (exampleCom ++ [46]) 1 1
          = [0x07, 0x65, 0x78, 0x61, 0x6D, 0x70, 0x6C, 0x65, 0x03, 0x63, 0x6F, 0x6D, 0x00,
             0x00, 0x00, 0x01, 0x00, 0x01] := by
  decide

/-- C19 (amended): every part produced by splitting on `'.'` is emitted, the empty ones
included, and an empty part is emitted as one zero byte.  For every dot in a hostname
the question is the length-prefixed parts before the dot followed by the question of
what is behind the dot; the question of the empty string is a zero byte, the
terminating zero byte and type and class.  So a trailing dot puts a second zero byte
before type and class, a leading dot puts a zero byte first, and two consecutive dots
put a zero byte between the parts. -/
theorem C19_empty_segments_emitted (a b : List Nat) (qType qClass : Nat) :
    makeDNSQuestion (a ++ 46 :: b) qType qClass
        = lengthPrefixed (splitDot a) ++ makeDNSQuestion b qType qClass
      ∧ makeDNSQuestion [] qType qClass = [0] ++ [0] ++ typeClassBytes qType qClass
      ∧ makeDNSQuestion (a ++ [46]) qType qClass
          = lengthPrefixed (splitDot a) ++ [0] ++ [0] ++ typeClassBytes qType qClass
      ∧ makeDNSQuestion a qType qClass
          = lengthPrefixed (splitDot a) ++ [0] ++ typeClassBytes qType qClass
      ∧ makeDNSQuestion (46 :: b) qType qClass = 0 :: makeDNSQuestion b qType qClass
      ∧ makeDNSQuestion (a ++ 46 :: 46 :: b) qType qClass
          = lengthPrefixed (splitDot a) ++ 0 :: makeDNSQuestion b qType qClass := by
  have key : ∀ x y : List Nat, makeDNSQuestion (x ++ 46 :: y) qType qClass
      = lengthPrefixed (splitDot x) ++ makeDNSQuestion y qType qClass := by
    intro x y
    rw [makeDNSQuestion_eq_lengthPrefixed, makeDNSQuestion_eq_lengthPrefixed,
      splitDot_append_dot, lengthPrefixed_append]
    simp
  have hnil : makeDNSQuestion [] qType qClass = [0] ++ [0] ++ typeClassBytes qType qClass := by
    rw [makeDNSQuestion_eq_lengthPrefixed]
    rfl
  have hlead : ∀ y : List Nat, makeDNSQuestion (46 :: y) qType qClass
      = 0 :: makeDNSQuestion y qType qClass := by
    intro y
    have := key [] y
    simpa [splitDot, lengthPrefixed] using this
  refine ⟨key a b, hnil, ?_, makeDNSQuestion_eq_lengthPrefixed a qType qClass, hlead b, ?_⟩
  · rw [key a [], hnil]
    simp
  · rw [key a (46 :: b), hlead b]

/-- C20: query/decode round trip.  For every 16-bit `txId`, boolean `recurse`, 16-bit
`qType` and `qClass`, and every hostname whose dot-separated labels all have length 1
to 63, `decodeResponse` of `makeDNSQueryHeader txId recurse ++ makeDNSQuestion hostname
qType qClass` (with any spare capacity, and any iteration budget above the number of
labels) succeeds and yields `TransactionId = txId`, `QDCount = 1`, `ANCount = NSCount =
ARCount = 0`, exactly one question with `Type = qType` and `Class = qClass`, no
records, and `Size = len(hostname) + 18`. -/
theorem C20_query_round_trip (txId : Nat) (recurse : Bool) (qType qClass : Nat)
    (hostname extra : List Nat) (fuel : Nat)
    (htx : txId < 65536) (ht : qType < 65536) (hc : qClass < 65536)
    (hlab : ∀ p ∈ splitDot hostname, 0 < p.length ∧ p.length ≤ 63)
    (hfuel : (splitDot hostname).length < fuel) :
    ∃ p, decodeResponse fuel
          ⟨makeDNSQueryHeader txId recurse ++ makeDNSQuestion hostname qType qClass, extra⟩
          = .ok p
      ∧ p.TransactionId = txId ∧ p.QDCount = 1
      ∧ p.ANCount = 0 ∧ p.NSCount = 0 ∧ p.ARCount = 0
      ∧ (∃ q, p.Questions = [q] ∧ q.Type_ = qType ∧ q.Class = qClass)
      ∧ p.Records = [] ∧ p.Size = hostname.length + 18 := by
  have hq := makeDNSQuestion_eq hostname qType qClass
    (fun p hp => by have := hlab p hp; omega)
  obtain ⟨s, hs⟩ : ∃ s : Slice, s = ⟨makeDNSQueryHeader txId recurse
      ++ makeDNSQuestion hostname qType qClass, extra⟩ := ⟨_, rfl⟩
  have hdata : s.data = (txId / 256) % 256 :: txId % 256 :: (if recurse then 1 else 0)
      :: 0 :: 0 :: 1 :: 0 :: 0 :: 0 :: 0 :: 0 :: 0 :: makeDNSQuestion hostname qType qClass := by
    rw [hs, makeDNSQueryHeader_eq]; rfl
  have hhead : decodeHeader s = .ok
      { TransactionId := txId, lFlagBits := if recurse then 1 else 0, rFlagBits := 0,
        QDCount := 1, ANCount := 0, NSCount := 0, ARCount := 0,
        Size := hostname.length + 18, Questions := [], Records := [] } := by
    have hsz : (makeDNSQuestion hostname qType qClass).length + 12 = hostname.length + 18 := by
      rw [hq]; simp [length_encodedLabels_splitDot]
    have hs2 : s = ⟨(txId / 256) % 256 :: txId % 256 :: (if recurse then 1 else 0)
        :: 0 :: 0 :: 1 :: 0 :: 0 :: 0 :: 0 :: 0 :: 0 :: makeDNSQuestion hostname qType qClass,
        extra⟩ := by
      rw [hs, makeDNSQueryHeader_eq]; rfl
    rw [hs2, decodeHeader_twelve, be16_eq _ _ (Nat.mod_lt _ (by decide)) (Nat.mod_lt _ (by decide)),
      hsz]
    have e : txId / 256 % 256 * 256 + txId % 256 = txId := by omega
    rw [e]
    rfl
  have hdrop : s.data.drop 12 = encodedLabels (splitDot hostname)
      ++ 0 :: qType / 256 :: qType % 256 :: qClass / 256 :: qClass % 256 :: [] := by
    rw [hdata, hq, Nat.mod_eq_of_lt (show qType / 256 < 256 by omega),
      Nat.mod_eq_of_lt (show qClass / 256 < 256 by omega)]
    simp
  have hquest := decodeQuestion_encoded s 12 fuel (splitDot hostname) (qType / 256)
    (qType % 256) (qClass / 256) (qClass % 256) [] hlab hfuel (by omega) (by omega)
    (by omega) (by omega) hdrop
  have e1 : qType / 256 * 256 + qType % 256 = qType := by omega
  have e2 : qClass / 256 * 256 + qClass % 256 = qClass := by omega
  rw [e1, e2] at hquest
  rw [← hs]
  unfold decodeResponse
  rw [hhead]
  simp only [Res.ok_bind, decodeQuestions, hquest, decodeRecords]
  exact ⟨_, rfl, rfl, rfl, rfl, rfl, rfl, ⟨_, rfl, rfl, rfl⟩, rfl, rfl⟩

theorem C20_query_round_trip_witness :
    (0x1234 < 65536) ∧ (1 < 65536) ∧ (1 < 65536)
      ∧ (∀ p ∈ splitDot exampleCom, 0 < p.length ∧ p.length ≤ 63)
      ∧ (splitDot exampleCom).length < 3
      ∧ ∃ p, decodeResponse 3
            ⟨makeDNSQueryHeader 0x1234 true ++ makeDNSQuestion exampleCom 1 1, []⟩ = .ok p
        ∧ p.TransactionId = 0x1234 ∧ p.QDCount = 1
        ∧ p.ANCount = 0 ∧ p.NSCount = 0 ∧ p.ARCount = 0
        ∧ (∃ q, p.Questions = [q] ∧ q.Type_ = 1 ∧ q.Class = 1)
        ∧ p.Records = [] ∧ p.Size = exampleCom.length + 18 :=
  ⟨by decide, by decide, by decide, by decide, by decide,
    C20_query_round_trip 0x1234 true 1 1 exampleCom [] 3 (by decide) (by decide) (by decide)
      (by decide) (by decide)⟩

end DNS
